import Mathlib

/-!
Verification development for the grid-navigation program
(`environment.py`, `pathfinding.py`, `agent.py`).

Positions are integer pairs, as in the Python source.  Dictionaries are
modelled as association lists whose update removes the old binding, so keys
stay distinct; lookup is first-match.  The `heapq` frontier of tuples
`(f, pos)` is modelled as a list from which the lexicographically least
element is removed, which matches `heappop` on distinct tuples.
Float distances in the source are `math.sqrt` of integer squares and are
only ever compared with each other or with constants; we model them by
their exact squared values, which is order-faithful.
-/

namespace SelfDriving

/-- A grid cell, as the Python `(x, y)` tuple of ints. -/
abbrev Pos := Int × Int

/-- Lexicographic order on positions, matching Python tuple comparison. -/
def posLt (p q : Pos) : Bool :=
  p.1 < q.1 || (p.1 == q.1 && p.2 < q.2)

/-- `environment.py`: the fields of `Environment` that the decision code
reads.  `road_map` is indexed as `road_map y x` like the Python list of
rows; it is only consulted inside the bounds check. -/
structure Environment where
  grid_width : Nat
  grid_height : Nat
  road_map : Nat → Nat → Bool
  obstacles : List Pos
  destination : Pos
  start_pos : Pos

/-- `Environment.is_valid_position`: bounds, road surface, not an obstacle. -/
def Environment.is_valid_position (env : Environment) (pos : Pos) : Bool :=
  0 ≤ pos.1 && pos.1 < (env.grid_width : Int) &&
  0 ≤ pos.2 && pos.2 < (env.grid_height : Int) &&
  env.road_map pos.2.toNat pos.1.toNat &&
  !(env.obstacles.contains pos)

/-- `Environment.is_road`: bounds and road surface, ignoring obstacles. -/
def Environment.is_road (env : Environment) (pos : Pos) : Bool :=
  0 ≤ pos.1 && pos.1 < (env.grid_width : Int) &&
  0 ≤ pos.2 && pos.2 < (env.grid_height : Int) &&
  env.road_map pos.2.toNat pos.1.toNat

/-- `AStar.heuristic`: Manhattan distance. -/
def heuristic (pos1 pos2 : Pos) : Nat :=
  (pos1.1 - pos2.1).natAbs + (pos1.2 - pos2.2).natAbs

/-- `AStar.get_neighbors`: the four axis neighbours in source order,
filtered by `is_valid_position`. -/
def get_neighbors (env : Environment) (pos : Pos) : List Pos :=
  [(pos.1, pos.2 + 1), (pos.1, pos.2 - 1),
   (pos.1 + 1, pos.2), (pos.1 - 1, pos.2)].filter env.is_valid_position

/-- First-match lookup in an association list (Python dict read). -/
def alookup {α β : Type} [DecidableEq α] : List (α × β) → α → Option β
  | [], _ => none
  | (k, v) :: rest, key => if k = key then some v else alookup rest key

/-- Dict write: remove any old binding for the key, add the new one. -/
def aset {α β : Type} [DecidableEq α] (m : List (α × β)) (key : α) (v : β) :
    List (α × β) :=
  (key, v) :: m.filter (fun kv => kv.1 ≠ key)

/-- Dict membership (`key in d`). -/
def amem {α β : Type} [DecidableEq α] (m : List (α × β)) (key : α) : Bool :=
  (alookup m key).isSome

/-- A frontier entry `(f, pos)` as pushed by the source. -/
abbrev Entry := Nat × Pos

/-- Python tuple order on entries: `f`, then the position tuple. -/
def entryLt (a b : Entry) : Bool :=
  a.1 < b.1 || (a.1 == b.1 && posLt a.2 b.2)

/-- The least entry of a non-empty frontier (what `heappop` returns:
entries in the frontier are pairwise distinct tuples because at most one
entry per position is present). -/
def minEntry : List Entry → Option Entry
  | [] => none
  | e :: rest =>
    match minEntry rest with
    | none => some e
    | some m => some (if entryLt m e then m else e)

/-- Remove the first occurrence of an entry from the frontier. -/
def removeEntry : List Entry → Entry → List Entry
  | [], _ => []
  | e :: rest, x => if e = x then rest else e :: removeEntry rest x

/-- `heappop`: least entry plus the remaining frontier. -/
def popMin (l : List Entry) : Option (Entry × List Entry) :=
  match minEntry l with
  | none => none
  | some e => some (e, removeEntry l e)

/-- Does the frontier hold an entry for this position
(`any(neighbor == item[1] for item in open_set)`)? -/
def inOpen (l : List Entry) (p : Pos) : Bool :=
  l.any (fun e => e.2 == p)

/-- The mutable state of the `find_path` loop. -/
structure SearchState where
  open_set : List Entry
  came_from : List (Pos × Pos)
  g_score : List (Pos × Nat)
  f_score : List (Pos × Nat)

/-- The body of `while current in came_from` (with fuel; the source loop
terminates because parent links strictly decrease `g`). -/
def reconAux (came_from : List (Pos × Pos)) : Nat → Pos → List Pos
  | 0, current => [current]
  | fuel + 1, current =>
    match alookup came_from current with
    | none => [current]
    | some parent => current :: reconAux came_from fuel parent

/-- `AStar.reconstruct_path`: follow parents from the goal, then reverse. -/
def reconstruct_path (came_from : List (Pos × Pos)) (current : Pos) : List Pos :=
  (reconAux came_from (came_from.length + 1) current).reverse

/-- Relax one neighbour of `current` (one iteration of the `for` loop). -/
def relaxNeighbor (env : Environment) (goal current : Pos)
    (st : SearchState) (neighbor : Pos) : SearchState :=
  let tentative := (alookup st.g_score current).getD 0 + 1
  if !amem st.g_score neighbor || tentative < (alookup st.g_score neighbor).getD 0 then
    let came_from := aset st.came_from neighbor current
    let g_score := aset st.g_score neighbor tentative
    let f_score := aset st.f_score neighbor (tentative + heuristic neighbor goal)
    let open_set :=
      if !inOpen st.open_set neighbor then
        (tentative + heuristic neighbor goal, neighbor) :: st.open_set
      else st.open_set
    ⟨open_set, came_from, g_score, f_score⟩
  else st

/-- Expand a popped node: relax its neighbours in source order. -/
def expand (env : Environment) (goal current : Pos) (st : SearchState) : SearchState :=
  (get_neighbors env current).foldl (relaxNeighbor env goal current) st

/-- The `while open_set` loop, with fuel.  `none` means the fuel ran out
(we prove below that the chosen fuel never does); `some l` is the list the
source returns. -/
def astarLoop (env : Environment) (goal : Pos) : Nat → SearchState → Option (List Pos)
  | 0, _ => none
  | fuel + 1, st =>
    match popMin st.open_set with
    | none => some []
    | some ((_, current), rest) =>
      if current = goal then
        some (reconstruct_path st.came_from current)
      else
        astarLoop env goal fuel (expand env goal current { st with open_set := rest })

/-- The initial search state built by `find_path` before the loop. -/
def initState (env : Environment) (start goal : Pos) : SearchState :=
  { open_set := [(0, start)]
    came_from := []
    g_score := [(start, 0)]
    f_score := [(start, heuristic start goal)] }

/-- Fuel that outlasts the loop (proved sufficient below). -/
def fuelBound (env : Environment) : Nat :=
  (env.grid_width * env.grid_height + 3) * (env.grid_width * env.grid_height + 3)

/-- `AStar.find_path`. -/
def find_path (env : Environment) (start goal : Pos) : List Pos :=
  (astarLoop env goal (fuelBound env) (initState env start goal)).getD []

/-! ## The agent (`agent.py`)

Distances in the source are `math.sqrt` of integer squares and are only
compared with each other, floored, or compared with the constants `2.0`,
`5`; all of these are determined by the squared value, so we carry squared
distances (`sqDist`).  Q-values and epsilon are floats in the source,
modelled as exact rationals.  The two `random` draws of a tick are passed
in explicitly as an oracle. -/

/-- Squared Euclidean distance between two cells (the square of the
`math.sqrt(...)` distances of the source). -/
def sqDist (p q : Pos) : Nat :=
  ((p.1 - q.1) ^ 2 + (p.2 - q.2) ^ 2).toNat

/-- The discretized state tuple built by `get_state`. -/
abbrev StateKey := Nat × Nat × Nat × Nat

/-- `self.directions`: right, down, left, up. -/
def directions : List Pos := [(1, 0), (0, 1), (-1, 0), (0, -1)]

/-- Per-action zero row used for lazy Q-table initialization. -/
def zeroRow : List ℚ := [0, 0, 0, 0]

/-- Python `max` on a non-empty list (the Q-rows always have 4 entries). -/
def listMax : List ℚ → ℚ
  | [] => 0
  | h :: t => t.foldl max h

/-- Python `min` on a non-empty list of squared distances. -/
def listMinNat : List Nat → Nat
  | [] => 0
  | h :: t => t.foldl min h

/-- `l.index(max(l))`: first index attaining the maximum. -/
def argmaxIdx (l : List ℚ) : Nat :=
  l.findIdx (fun x => x == listMax l)

/-- `self.learning_rate` (= 0.1). -/
def learning_rate : ℚ := 1 / 10

/-- `self.discount_factor` (= 0.95). -/
def discount_factor : ℚ := 19 / 20

/-- `self.replan_every_n_steps` (= 30). -/
def replan_every_n_steps : Nat := 30

/-- The mutable fields of `SelfDrivingAgent` that the decision code uses.
`prev_dest_dist` holds the squared distance (the source holds its square
root). -/
structure AgentState where
  position : Pos
  heading : Nat
  q_table : List (StateKey × List ℚ)
  epsilon : ℚ
  planned_path : List Pos
  total_reward : Int
  steps : Nat
  max_steps : Nat
  prev_dest_dist : Option Nat
  last_replan_step : Nat

/-- The two random draws a tick can consume: `random.random()` and the
index chosen by `random.choice(self.actions)`. -/
structure Oracle where
  randVal : ℚ
  randChoice : Nat

/-- `SelfDrivingAgent._maybe_replan`. -/
def maybe_replan (env : Environment) (a : AgentState) : AgentState :=
  if a.steps - a.last_replan_step ≥ replan_every_n_steps then
    let a := { a with last_replan_step := a.steps }
    let path := find_path env a.position env.destination
    if path ≠ [] then { a with planned_path := path.tail } else a
  else if a.planned_path ≠ [] then
    if a.planned_path.any (fun p => env.obstacles.contains p) then
      let path := find_path env a.position env.destination
      let a := if path ≠ [] then { a with planned_path := path.tail } else a
      { a with last_replan_step := a.steps }
    else
      let minSq := listMinNat (a.planned_path.map (sqDist a.position))
      if minSq > 4 then
        let path := find_path env a.position env.destination
        let a := if path ≠ [] then { a with planned_path := path.tail } else a
        { a with last_replan_step := a.steps }
      else a
  else a

/-- `SelfDrivingAgent.get_state`. -/
def get_state (env : Environment) (a : AgentState) : StateKey :=
  let destSq := sqDist a.position env.destination
  let nearObs := env.obstacles.filter (fun o => sqDist a.position o ≤ 25)
  let minObstacle : Nat :=
    if nearObs.isEmpty then 5
    else min (Nat.sqrt (listMinNat (nearObs.map (sqDist a.position)))) 5
  let pathDev : Nat :=
    if a.planned_path.isEmpty then 0
    else min (Nat.sqrt (listMinNat (a.planned_path.map (sqDist a.position)))) 3
  (min (Nat.sqrt destSq) 20, minObstacle, a.heading, pathDev)

/-- The epsilon-greedy fallback branch of `choose_action` (lazily creates
the Q-row for the state). -/
def chooseQ (a : AgentState) (state : StateKey) (o : Oracle) : Nat × AgentState :=
  let q := if amem a.q_table state then a.q_table else aset a.q_table state zeroRow
  let a := { a with q_table := q }
  if o.randVal < a.epsilon then (o.randChoice % 4, a)
  else (argmaxIdx ((alookup q state).getD zeroRow), a)

/-- `SelfDrivingAgent.choose_action`: follow the plan head when its delta
is a unit step, otherwise epsilon-greedy over the Q-table.  Returns the
action together with the agent (the fallback lazily creates the Q-row). -/
def choose_action (a : AgentState) (state : StateKey) (o : Oracle) :
    Nat × AgentState :=
  match a.planned_path with
  | next_pos :: _ =>
    let dx := next_pos.1 - a.position.1
    let dy := next_pos.2 - a.position.2
    if dx = 1 ∧ dy = 0 then (if a.heading = 0 then 0 else 1, a)
    else if dx = -1 ∧ dy = 0 then (if a.heading = 2 then 0 else 1, a)
    else if dx = 0 ∧ dy = 1 then (if a.heading = 1 then 0 else 1, a)
    else if dx = 0 ∧ dy = -1 then (if a.heading = 3 then 0 else 1, a)
    else chooseQ a state o
  | [] => chooseQ a state o

/-- `SelfDrivingAgent.execute_action`: returns the agent and whether the
position changed. -/
def execute_action (env : Environment) (a : AgentState) (action : Nat) :
    AgentState × Bool :=
  let old_pos := a.position
  let a :=
    if action = 0 then
      let d := directions.getD a.heading (0, 0)
      let new_pos : Pos := (a.position.1 + d.1, a.position.2 + d.2)
      if env.is_valid_position new_pos then
        let a := { a with position := new_pos }
        if a.planned_path.head? = some new_pos then
          { a with planned_path := a.planned_path.tail }
        else a
      else a
    else if action = 1 then { a with heading := (a.heading + 1) % 4 }
    else if action = 2 then { a with heading := (a.heading + 3) % 4 }
    else if action = 3 then
      let d := directions.getD a.heading (0, 0)
      let new_pos : Pos := (a.position.1 - d.1, a.position.2 - d.2)
      if env.is_valid_position new_pos then { a with position := new_pos } else a
    else a
  (a, a.position ≠ old_pos)

/-- `SelfDrivingAgent.calculate_reward`: reward, terminal flag, and the
agent with its stored previous distance updated. -/
def calculate_reward (env : Environment) (a : AgentState) :
    Int × Bool × AgentState :=
  let reward : Int := -1
  if a.position = env.destination then (reward + 100, true, a)
  else if env.obstacles.contains a.position then (reward - 100, true, a)
  else
    let reward := if !env.is_road a.position then reward - 10 else reward
    let dist := sqDist a.position env.destination
    let reward :=
      match a.prev_dest_dist with
      | some prev => if dist < prev then reward + 2 else reward
      | none => reward
    (reward, false, { a with prev_dest_dist := some dist })

/-- `SelfDrivingAgent.update_q_table`. -/
def update_q_table (a : AgentState) (state : StateKey) (action : Nat)
    (reward : Int) (next_state : StateKey) : AgentState :=
  let q := if amem a.q_table state then a.q_table else aset a.q_table state zeroRow
  let q := if amem q next_state then q else aset q next_state zeroRow
  let row := (alookup q state).getD zeroRow
  let current_q := row.getD action 0
  let max_next_q := listMax ((alookup q next_state).getD zeroRow)
  let newv := current_q + learning_rate * ((reward : ℚ) + discount_factor * max_next_q - current_q)
  { a with q_table := aset q state (row.set action newv) }

/-- The initial-tick planning block at the top of `SelfDrivingAgent.step`. -/
def stepInit (env : Environment) (a : AgentState) : AgentState :=
  if a.steps = 0 then
    let path := find_path env a.position env.destination
    let a := if path ≠ [] then { a with planned_path := path.tail } else a
    { a with prev_dest_dist := some (sqDist a.position env.destination) }
  else a

/-- `SelfDrivingAgent.step`: one full tick; returns the agent and `done`. -/
def step (env : Environment) (a : AgentState) (o : Oracle) : AgentState × Bool :=
  let a := stepInit env a
  let a := maybe_replan env a
  let state := get_state env a
  let res := choose_action a state o
  let action := res.1
  let res2 := execute_action env res.2 action
  let res3 := calculate_reward env res2.1
  let reward := res3.1
  let done := res3.2.1
  let a := res3.2.2
  let a := { a with total_reward := a.total_reward + reward }
  let a := { a with steps := a.steps + 1 }
  let next_state := get_state env a
  let a := update_q_table a state action reward next_state
  let done := if a.steps ≥ a.max_steps then true else done
  (a, done)

/-- `SelfDrivingAgent.reset`. -/
def reset (env : Environment) (a : AgentState) : AgentState :=
  { a with
    position := env.start_pos
    heading := 0
    total_reward := 0
    steps := 0
    planned_path := []
    prev_dest_dist := none
    epsilon := max (1 / 20) (a.epsilon * (199 / 200)) }

/-! ## Association-list lemmas -/

theorem alookup_cons {α β : Type} [DecidableEq α] (a : α) (b : β) (rest : List (α × β))
    (key : α) : alookup ((a, b) :: rest) key = if a = key then some b else alookup rest key :=
  rfl

theorem alookup_aset_self {α β : Type} [DecidableEq α] (m : List (α × β)) (k : α) (v : β) :
    alookup (aset m k v) k = some v := by
  simp [aset, alookup]

theorem alookup_filter_ne {α β : Type} [DecidableEq α] (m : List (α × β)) (k k' : α)
    (h : k' ≠ k) : alookup (m.filter (fun kv => kv.1 ≠ k)) k' = alookup m k' := by
  induction m with
  | nil => rfl
  | cons kv rest ih =>
    obtain ⟨a, b⟩ := kv
    by_cases hk : a = k
    · have h1 : ((a, b) :: rest).filter (fun kv => kv.1 ≠ k) =
          rest.filter (fun kv => kv.1 ≠ k) := by
        simp [List.filter, hk]
      have h2 : a ≠ k' := fun hh => h (by rw [← hh, hk])
      rw [h1, ih, alookup_cons, if_neg h2]
    · have h1 : ((a, b) :: rest).filter (fun kv => kv.1 ≠ k) =
          (a, b) :: rest.filter (fun kv => kv.1 ≠ k) := by
        simp [List.filter, hk]
      rw [h1, alookup_cons, alookup_cons, ih]

theorem alookup_aset_ne {α β : Type} [DecidableEq α] (m : List (α × β)) (k k' : α) (v : β)
    (h : k' ≠ k) : alookup (aset m k v) k' = alookup m k' := by
  unfold aset
  rw [alookup_cons, if_neg (fun hh => h hh.symm)]
  exact alookup_filter_ne m k k' h

theorem amem_false_none {α β : Type} [DecidableEq α] (m : List (α × β)) (k : α)
    (h : ¬ amem m k = true) : alookup m k = none := by
  unfold amem at h
  cases hl : alookup m k with
  | none => rfl
  | some v => rw [hl] at h; simp at h

theorem amem_eq_false {α β : Type} [DecidableEq α] (m : List (α × β)) (k : α)
    (h : alookup m k = none) : amem m k = false := by
  unfold amem; rw [h]; rfl

/-- Lazy zero-row creation leaves the effective row of a key unchanged. -/
theorem alookup_init_getD {α : Type} [DecidableEq α] (m : List (α × List ℚ)) (k k' : α) :
    (alookup (if amem m k then m else aset m k zeroRow) k').getD zeroRow =
      (alookup m k').getD zeroRow := by
  by_cases hmem : amem m k
  · simp [hmem]
  · simp only [hmem, Bool.false_eq_true, if_false]
    by_cases hk : k' = k
    · subst hk
      rw [alookup_aset_self, amem_false_none m k' hmem]
      rfl
    · rw [alookup_aset_ne _ _ _ _ hk]

/-- Lazy zero-row creation can only add the requested key. -/
theorem alookup_init_ne {α : Type} [DecidableEq α] (m : List (α × List ℚ)) (k k' : α)
    (h : k' ≠ k) :
    alookup (if amem m k then m else aset m k zeroRow) k' = alookup m k' := by
  by_cases hmem : amem m k
  · simp [hmem]
  · simp only [hmem, Bool.false_eq_true, if_false]
    exact alookup_aset_ne _ _ _ _ h

/-! ## C6: the Q-table update -/

/-- C6: `update_q_table` stores, at `(state, action)`, the value
`old + 0.1 * (reward + 0.95 * max_next - old)` where `old` is the
previously stored value (`0` if the state is unseen) and `max_next` the
maximum stored value of the successor state (`0` if unseen); absent rows
are created as zero rows (shown here for the successor state). -/
theorem update_q_table_formula (a : AgentState) (s s' : StateKey) (action : Nat)
    (r : Int) (h4 : action < 4)
    (hlen : ((alookup a.q_table s).getD zeroRow).length = 4) :
    (((alookup (update_q_table a s action r s').q_table s).getD zeroRow).getD action 0 =
      ((alookup a.q_table s).getD zeroRow).getD action 0 +
        (1 / 10 : ℚ) * ((r : ℚ) + (19 / 20) * listMax ((alookup a.q_table s').getD zeroRow) -
          ((alookup a.q_table s).getD zeroRow).getD action 0)) ∧
    (amem a.q_table s' = false → s' ≠ s →
      alookup (update_q_table a s action r s').q_table s' = some zeroRow) := by
  have hs : (alookup (if amem (if amem a.q_table s then a.q_table else aset a.q_table s zeroRow) s'
        then (if amem a.q_table s then a.q_table else aset a.q_table s zeroRow)
        else aset (if amem a.q_table s then a.q_table else aset a.q_table s zeroRow) s' zeroRow) s).getD zeroRow
      = (alookup a.q_table s).getD zeroRow := by
    rw [alookup_init_getD, alookup_init_getD]
  have hs' : (alookup (if amem (if amem a.q_table s then a.q_table else aset a.q_table s zeroRow) s'
        then (if amem a.q_table s then a.q_table else aset a.q_table s zeroRow)
        else aset (if amem a.q_table s then a.q_table else aset a.q_table s zeroRow) s' zeroRow) s').getD zeroRow
      = (alookup a.q_table s').getD zeroRow := by
    rw [alookup_init_getD, alookup_init_getD]
  constructor
  · show ((alookup (aset _ s _) s).getD zeroRow).getD action 0 = _
    rw [alookup_aset_self, Option.getD_some, hs, hs']
    have hlt : action < ((alookup a.q_table s).getD zeroRow).length := by
      rw [hlen]; exact h4
    rw [List.getD_eq_getElem?_getD, List.getElem?_set_self (by exact hlt)]
    rfl
  · intro habs hne
    show alookup (aset _ s _) s' = some zeroRow
    rw [alookup_aset_ne _ _ _ _ hne]
    have hq1 : alookup (if amem a.q_table s then a.q_table else aset a.q_table s zeroRow) s'
        = none := by
      rw [alookup_init_ne _ _ _ hne, amem_false_none _ _ (by simp [habs])]
    have hmem1 : amem (if amem a.q_table s then a.q_table else aset a.q_table s zeroRow) s'
        = false := amem_eq_false _ _ hq1
    simp only [hmem1, Bool.false_eq_true, if_false]
    exact alookup_aset_self _ _ _

/-- C6 witness: starting from an empty table, with reward 10 the stored
value becomes exactly 1. -/
theorem update_q_table_formula_witness :
    ((alookup (update_q_table
        { position := (0, 0), heading := 0, q_table := [], epsilon := 3 / 10,
          planned_path := [], total_reward := 0, steps := 0, max_steps := 500,
          prev_dest_dist := none, last_replan_step := 0 }
        (0, 0, 0, 0) 0 10 (1, 0, 0, 0)).q_table (0, 0, 0, 0)).getD zeroRow).getD 0 0
      = 1 := by
  have h := update_q_table_formula
    { position := (0, 0), heading := 0, q_table := [], epsilon := 3 / 10,
      planned_path := [], total_reward := 0, steps := 0, max_steps := 500,
      prev_dest_dist := none, last_replan_step := 0 }
    (0, 0, 0, 0) (1, 0, 0, 0) 0 10 (by decide) (by rfl)
  rw [h.1]
  norm_num [alookup, zeroRow, listMax]

/-! ## C9: epsilon annealing -/

/-- C9: after each reset, epsilon equals `max (0.05) (0.995 * previous)`;
starting at or above the floor it is non-increasing and never drops below
`0.05`. -/
theorem reset_epsilon (env : Environment) (a : AgentState)
    (h : (1 / 20 : ℚ) ≤ a.epsilon) :
    (reset env a).epsilon = max (1 / 20) (a.epsilon * (199 / 200)) ∧
    (reset env a).epsilon ≤ a.epsilon ∧
    (1 / 20 : ℚ) ≤ (reset env a).epsilon := by
  refine ⟨rfl, ?_, le_max_left _ _⟩
  show max (1 / 20) (a.epsilon * (199 / 200)) ≤ a.epsilon
  apply max_le h
  nlinarith

/-- C9 witness at the initial exploration rate 0.3. -/
theorem reset_epsilon_witness :
    (reset
      { grid_width := 1, grid_height := 1, road_map := fun _ _ => true,
        obstacles := [], destination := (0, 0), start_pos := (0, 0) }
      { position := (0, 0), heading := 0, q_table := [], epsilon := 3 / 10,
        planned_path := [], total_reward := 0, steps := 0, max_steps := 500,
        prev_dest_dist := none, last_replan_step := 0 }).epsilon
      = max (1 / 20) ((3 / 10) * (199 / 200)) := by
  have h := reset_epsilon
    { grid_width := 1, grid_height := 1, road_map := fun _ _ => true,
      obstacles := [], destination := (0, 0), start_pos := (0, 0) }
    { position := (0, 0), heading := 0, q_table := [], epsilon := 3 / 10,
      planned_path := [], total_reward := 0, steps := 0, max_steps := 500,
      prev_dest_dist := none, last_replan_step := 0 }
    (by norm_num)
  exact h.1

/-! ## Concrete fixtures shared by witnesses and counterexamples -/

/-- A default agent used as the base of concrete test states. -/
def baseAgent : AgentState :=
  { position := (0, 0), heading := 0, q_table := [], epsilon := 3 / 10,
    planned_path := [], total_reward := 0, steps := 0, max_steps := 500,
    prev_dest_dist := none, last_replan_step := 0 }

/-- A 4×1 all-road strip with destination `(1, 0)`. -/
def stripEnv : Environment :=
  { grid_width := 4, grid_height := 1, road_map := fun _ _ => true,
    obstacles := [], destination := (1, 0), start_pos := (0, 0) }

/-! ## C5: the reward cases -/

/-- C5: `calculate_reward` yields exactly `99` and terminal when the
position is the destination; exactly `-101` and terminal on an obstacle
cell that is not the destination; and exactly `-11`, non-terminal, on an
off-road, non-obstacle, non-destination cell that is not strictly closer
to the destination than the stored previous distance.  Distances are
compared by their squares, which is equivalent to the source's
square-root comparison. -/
theorem calculate_reward_cases (env : Environment) (a : AgentState) :
    (a.position = env.destination →
      (calculate_reward env a).1 = 99 ∧ (calculate_reward env a).2.1 = true) ∧
    (a.position ≠ env.destination → a.position ∈ env.obstacles →
      (calculate_reward env a).1 = -101 ∧ (calculate_reward env a).2.1 = true) ∧
    (∀ prev, a.position ≠ env.destination →
      a.position ∉ env.obstacles →
      env.is_road a.position = false →
      a.prev_dest_dist = some prev →
      ¬ sqDist a.position env.destination < prev →
      (calculate_reward env a).1 = -11 ∧ (calculate_reward env a).2.1 = false) := by
  refine ⟨?_, ?_, ?_⟩
  · intro h
    simp [calculate_reward, h]
  · intro h hobs
    simp [calculate_reward, h, hobs]
  · intro prev h hobs hroad hprev hclose
    simp [calculate_reward, h, hobs, hroad, hprev, hclose]

/-- C5 witness: on a strip world the three branches are exercised at the
destination, at an obstacle cell, and at an off-road cell that is not
closer than the stored distance. -/
theorem calculate_reward_cases_witness :
    (calculate_reward stripEnv { baseAgent with position := (1, 0) }).1 = 99 ∧
    (calculate_reward { stripEnv with obstacles := [(2, 0)] }
      { baseAgent with position := (2, 0) }).1 = -101 ∧
    (calculate_reward { stripEnv with road_map := fun _ x => x ≤ 2 }
      { baseAgent with position := (3, 0), prev_dest_dist := some 1 }).1 = -11 := by
  refine ⟨?_, ?_, ?_⟩
  · exact ((calculate_reward_cases _ _).1 (by decide)).1
  · exact ((calculate_reward_cases _ _).2.1 (by decide) (by decide)).1
  · exact ((calculate_reward_cases _ _).2.2 1 (by decide) (by decide) (by decide)
      (by decide) (by decide)).1

/-! ## C10: `find_path` with `start = goal` -/

theorem astarLoop_start_goal (env : Environment) (p : Pos) (fuel : Nat) :
    astarLoop env p (fuel + 1) (initState env p p) = some [p] := by
  simp [astarLoop, initState, popMin, minEntry, removeEntry, reconstruct_path, reconAux,
    alookup]

/-- C10: for every cell `p` — valid or not — `find_path p p` returns
`[p]`: the popped start node is goal-tested before any validity check. -/
theorem find_path_self (env : Environment) (p : Pos) :
    find_path env p p = [p] := by
  unfold find_path
  obtain ⟨m, hm⟩ : ∃ m, fuelBound env = m + 1 := by
    refine ⟨fuelBound env - 1, ?_⟩
    have : 1 ≤ fuelBound env := by
      unfold fuelBound; nlinarith [Nat.zero_le (env.grid_width * env.grid_height)]
    omega
  rw [hm, astarLoop_start_goal]
  rfl

/-! ## C3: action choice with a non-empty plan -/

theorem dirs_getD_overflow (n : Nat) : directions.getD (n + 4) (0, 0) = (0, 0) := by
  simp [directions]

theorem dirs_eq_iff_0 (h : Nat) :
    (directions.getD h (0, 0) = ((1 : Int), (0 : Int))) ↔ h = 0 := by
  match h with
  | 0 => decide
  | 1 => decide
  | 2 => decide
  | 3 => decide
  | n + 4 =>
    rw [dirs_getD_overflow]
    constructor
    · intro hc; exact absurd hc (by decide)
    · intro hc; omega

theorem dirs_eq_iff_1 (h : Nat) :
    (directions.getD h (0, 0) = ((0 : Int), (1 : Int))) ↔ h = 1 := by
  match h with
  | 0 => decide
  | 1 => decide
  | 2 => decide
  | 3 => decide
  | n + 4 =>
    rw [dirs_getD_overflow]
    constructor
    · intro hc; exact absurd hc (by decide)
    · intro hc; omega

theorem dirs_eq_iff_2 (h : Nat) :
    (directions.getD h (0, 0) = ((-1 : Int), (0 : Int))) ↔ h = 2 := by
  match h with
  | 0 => decide
  | 1 => decide
  | 2 => decide
  | 3 => decide
  | n + 4 =>
    rw [dirs_getD_overflow]
    constructor
    · intro hc; exact absurd hc (by decide)
    · intro hc; omega

theorem dirs_eq_iff_3 (h : Nat) :
    (directions.getD h (0, 0) = ((0 : Int), (-1 : Int))) ↔ h = 3 := by
  match h with
  | 0 => decide
  | 1 => decide
  | 2 => decide
  | 3 => decide
  | n + 4 =>
    rw [dirs_getD_overflow]
    constructor
    · intro hc; exact absurd hc (by decide)
    · intro hc; omega

/-- C3 (amended): with a non-empty plan whose head is one unit step away,
`choose_action` returns Forward (0) when `directions[heading]` equals that
step and Turn Right (1) otherwise; in particular the action is 0 or 1.
(When the head is not a unit step away the source falls through to the
epsilon-greedy branch instead — see the counterexample.) -/
theorem choose_action_plan (a : AgentState) (state : StateKey) (o : Oracle)
    (next : Pos) (rest : List Pos)
    (hplan : a.planned_path = next :: rest)
    (hunit : ((next.1 - a.position.1, next.2 - a.position.2) : Pos) ∈ directions) :
    (choose_action a state o).1 =
      (if directions.getD a.heading (0, 0) =
          ((next.1 - a.position.1, next.2 - a.position.2) : Pos) then 0 else 1) ∧
    ((choose_action a state o).1 = 0 ∨ (choose_action a state o).1 = 1) := by
  have hmain : (choose_action a state o).1 =
      (if directions.getD a.heading (0, 0) =
          ((next.1 - a.position.1, next.2 - a.position.2) : Pos) then 0 else 1) := by
    unfold choose_action
    rw [hplan]
    simp only [directions, List.mem_cons, List.not_mem_nil, or_false] at hunit
    rcases hunit with h1 | h2 | h3 | h4
    · have hx : next.1 - a.position.1 = 1 := congrArg Prod.fst h1
      have hy : next.2 - a.position.2 = 0 := congrArg Prod.snd h1
      simp only [hx, hy, dirs_eq_iff_0]
      norm_num
    · have hx : next.1 - a.position.1 = 0 := congrArg Prod.fst h2
      have hy : next.2 - a.position.2 = 1 := congrArg Prod.snd h2
      simp only [hx, hy, dirs_eq_iff_1]
      norm_num
    · have hx : next.1 - a.position.1 = -1 := congrArg Prod.fst h3
      have hy : next.2 - a.position.2 = 0 := congrArg Prod.snd h3
      simp only [hx, hy, dirs_eq_iff_2]
      norm_num
    · have hx : next.1 - a.position.1 = 0 := congrArg Prod.fst h4
      have hy : next.2 - a.position.2 = -1 := congrArg Prod.snd h4
      simp only [hx, hy, dirs_eq_iff_3]
      norm_num
  exact ⟨hmain, by rw [hmain]; split <;> simp⟩

/-- C3 witness: the amended statement at a concrete aligned state. -/
theorem choose_action_plan_witness :
    (choose_action { baseAgent with planned_path := [(1, 0)] }
      (0, 0, 0, 0) { randVal := 1, randChoice := 0 }).1 = 0 := by
  have h := choose_action_plan { baseAgent with planned_path := [(1, 0)] }
    (0, 0, 0, 0) { randVal := 1, randChoice := 0 } (1, 0) [] rfl (by decide)
  rw [h.1]
  decide

/-- C3 counterexample: with a non-empty plan whose head is five cells
away diagonally, the heading does not point along the delta, yet the
source returns Forward (0) from the greedy fallback instead of the
Turn Right (1) the claim requires. -/
theorem choose_action_offplan_cex :
    ({ baseAgent with planned_path := [(5, 5)] } : AgentState).planned_path ≠ [] ∧
    directions.getD baseAgent.heading (0, 0) ≠
      ((5 : Int) - baseAgent.position.1, (5 : Int) - baseAgent.position.2) ∧
    (choose_action { baseAgent with planned_path := [(5, 5)] }
      (0, 0, 0, 0) { randVal := 1, randChoice := 0 }).1 = 0 := by
  refine ⟨by decide, by decide, ?_⟩
  show (chooseQ _ (0, 0, 0, 0) { randVal := 1, randChoice := 0 }).1 = 0
  unfold chooseQ
  norm_num [amem, alookup, baseAgent, aset, argmaxIdx, zeroRow, listMax,
    List.findIdx_cons]

/-! ## C8: episode termination by step ceiling -/

theorem stepInit_steps (env : Environment) (a : AgentState) :
    (stepInit env a).steps = a.steps := by
  unfold stepInit
  dsimp only
  split_ifs <;> rfl

theorem stepInit_max_steps (env : Environment) (a : AgentState) :
    (stepInit env a).max_steps = a.max_steps := by
  unfold stepInit
  dsimp only
  split_ifs <;> rfl

theorem maybe_replan_steps (env : Environment) (a : AgentState) :
    (maybe_replan env a).steps = a.steps := by
  unfold maybe_replan
  dsimp only
  split_ifs <;> rfl

theorem maybe_replan_max_steps (env : Environment) (a : AgentState) :
    (maybe_replan env a).max_steps = a.max_steps := by
  unfold maybe_replan
  dsimp only
  split_ifs <;> rfl

theorem choose_action_steps (a : AgentState) (state : StateKey) (o : Oracle) :
    (choose_action a state o).2.steps = a.steps := by
  unfold choose_action chooseQ
  cases a.planned_path <;> dsimp only <;> split_ifs <;> rfl

theorem choose_action_max_steps (a : AgentState) (state : StateKey) (o : Oracle) :
    (choose_action a state o).2.max_steps = a.max_steps := by
  unfold choose_action chooseQ
  cases a.planned_path <;> dsimp only <;> split_ifs <;> rfl

theorem execute_action_steps (env : Environment) (a : AgentState) (action : Nat) :
    (execute_action env a action).1.steps = a.steps := by
  unfold execute_action
  dsimp only
  split_ifs <;> rfl

theorem execute_action_max_steps (env : Environment) (a : AgentState) (action : Nat) :
    (execute_action env a action).1.max_steps = a.max_steps := by
  unfold execute_action
  dsimp only
  split_ifs <;> rfl

theorem calculate_reward_steps (env : Environment) (a : AgentState) :
    (calculate_reward env a).2.2.steps = a.steps := by
  unfold calculate_reward
  dsimp only
  split_ifs <;> rfl

theorem calculate_reward_max_steps (env : Environment) (a : AgentState) :
    (calculate_reward env a).2.2.max_steps = a.max_steps := by
  unfold calculate_reward
  dsimp only
  split_ifs <;> rfl

theorem calculate_reward_position (env : Environment) (a : AgentState) :
    (calculate_reward env a).2.2.position = a.position := by
  unfold calculate_reward
  dsimp only
  split_ifs <;> rfl

theorem calculate_reward_done_false (env : Environment) (a : AgentState)
    (h1 : a.position ≠ env.destination) (h2 : a.position ∉ env.obstacles) :
    (calculate_reward env a).2.1 = false := by
  simp [calculate_reward, h1, h2]

theorem update_q_table_steps (a : AgentState) (s : StateKey) (action : Nat)
    (r : Int) (ns : StateKey) : (update_q_table a s action r ns).steps = a.steps := rfl

theorem update_q_table_max_steps (a : AgentState) (s : StateKey) (action : Nat)
    (r : Int) (ns : StateKey) :
    (update_q_table a s action r ns).max_steps = a.max_steps := rfl

theorem update_q_table_position (a : AgentState) (s : StateKey) (action : Nat)
    (r : Int) (ns : StateKey) :
    (update_q_table a s action r ns).position = a.position := rfl

/-- The position `step` reports is the one `execute_action` produced. -/
theorem step_position (env : Environment) (a : AgentState) (o : Oracle) :
    (step env a o).1.position =
      (execute_action env
        (choose_action (maybe_replan env (stepInit env a))
          (get_state env (maybe_replan env (stepInit env a))) o).2
        (choose_action (maybe_replan env (stepInit env a))
          (get_state env (maybe_replan env (stepInit env a))) o).1).1.position := by
  unfold step
  dsimp only
  rw [update_q_table_position]
  show (calculate_reward env _).2.2.position = _
  rw [calculate_reward_position]

/-- C8: provided the tick neither reaches the destination nor lands on an
obstacle, `step` reports `done = true` exactly when the incremented step
counter has reached the ceiling of 500 - `false` on every earlier tick. -/
theorem step_ceiling (env : Environment) (a : AgentState) (o : Oracle)
    (hmax : a.max_steps = 500)
    (hdest : (step env a o).1.position ≠ env.destination)
    (hobs : (step env a o).1.position ∉ env.obstacles) :
    ((step env a o).2 = true ↔ 500 ≤ a.steps + 1) := by
  rw [step_position] at hdest hobs
  have hdone := calculate_reward_done_false env
    (execute_action env
      (choose_action (maybe_replan env (stepInit env a))
        (get_state env (maybe_replan env (stepInit env a))) o).2
      (choose_action (maybe_replan env (stepInit env a))
        (get_state env (maybe_replan env (stepInit env a))) o).1).1 hdest hobs
  unfold step
  dsimp only
  rw [update_q_table_steps, update_q_table_max_steps]
  show ((if (calculate_reward env _).2.2.steps + 1 >= (calculate_reward env _).2.2.max_steps
      then true else (calculate_reward env _).2.1) = true <-> _)
  rw [calculate_reward_steps, calculate_reward_max_steps, execute_action_steps,
    execute_action_max_steps, choose_action_steps, choose_action_max_steps,
    maybe_replan_steps, maybe_replan_max_steps, stepInit_steps, stepInit_max_steps,
    hmax, hdone]
  constructor
  · intro h
    by_contra hc
    rw [if_neg (by omega)] at h
    exact Bool.false_ne_true h
  · intro h
    rw [if_pos (by omega)]

/-- C8 witness: at step counter 499 a harmless plan-following tick trips
the ceiling. -/
theorem step_ceiling_witness :
    (step stripEnv
      { baseAgent with
        position := (2, 0)
        steps := 499
        last_replan_step := 499
        planned_path := [(3, 0)] }
      { randVal := 1, randChoice := 0 }).2 = true := by
  have h := step_ceiling stripEnv
    { baseAgent with
      position := (2, 0)
      steps := 499
      last_replan_step := 499
      planned_path := [(3, 0)] }
    { randVal := 1, randChoice := 0 } rfl (by decide) (by decide)
  exact h.mpr (by decide)


/-! ## Search analysis: basic notions -/

/-- `n` is one of the four axis neighbours of `p` (the candidates scanned
by `get_neighbors`). -/
def unitStep (p n : Pos) : Prop :=
  n = (p.1, p.2 + 1) ∨ n = (p.1, p.2 - 1) ∨ n = (p.1 + 1, p.2) ∨ n = (p.1 - 1, p.2)

instance (p n : Pos) : Decidable (unitStep p n) := by
  unfold unitStep; infer_instance

/-- Reachability along unit steps through valid cells (the start cell
itself need not be valid, matching the search's behaviour). -/
def Reachable (env : Environment) (s t : Pos) : Prop :=
  Relation.ReflTransGen (fun u v => unitStep u v ∧ env.is_valid_position v = true) s t

/-- The keys of an association list. -/
def keysOf {α β : Type} (m : List (α × β)) : List α := m.map Prod.fst

/-- All cells of the grid, as integer pairs. -/
def cellsList (env : Environment) : List Pos :=
  (List.range env.grid_width).flatMap (fun x =>
    (List.range env.grid_height).map (fun y => (Int.ofNat x, Int.ofNat y)))

/-- The cells the search can ever touch: the start plus the grid cells. -/
def reachList (env : Environment) (start : Pos) : List Pos :=
  (start :: cellsList env).dedup

/-- Potential of one cell: its `g` value if assigned, a large default if
not. -/
def cellWeight (env : Environment) (start : Pos) (g : List (Pos × Nat)) (p : Pos) : Nat :=
  if amem g p then (alookup g p).getD 0 else (reachList env start).length + 2

/-- Termination measure of the search loop. -/
def searchMeasure (env : Environment) (start : Pos) (st : SearchState) : Nat :=
  st.open_set.length + ((reachList env start).map (cellWeight env start st.g_score)).sum

theorem unitStep_ne {p n : Pos} (h : unitStep p n) : n ≠ p := by
  intro hc
  subst hc
  rcases h with h | h | h | h
  · have h2 : n.2 = n.2 + 1 := congrArg Prod.snd h
    omega
  · have h2 : n.2 = n.2 - 1 := congrArg Prod.snd h
    omega
  · have h2 : n.1 = n.1 + 1 := congrArg Prod.fst h
    omega
  · have h2 : n.1 = n.1 - 1 := congrArg Prod.fst h
    omega

theorem alookup_mem_keys {α β : Type} [DecidableEq α] {m : List (α × β)} {k : α} {v : β}
    (h : alookup m k = some v) : k ∈ keysOf m := by
  induction m with
  | nil => simp [alookup] at h
  | cons kv rest ih =>
    obtain ⟨a, b⟩ := kv
    rw [alookup_cons] at h
    by_cases hk : a = k
    · subst hk; exact List.mem_cons_self _ _
    · rw [if_neg hk] at h
      exact List.mem_cons_of_mem _ (ih h)

theorem mem_keys_alookup {α β : Type} [DecidableEq α] {m : List (α × β)} {k : α}
    (h : k ∈ keysOf m) : ∃ v, alookup m k = some v := by
  induction m with
  | nil => simp [keysOf] at h
  | cons kv rest ih =>
    obtain ⟨a, b⟩ := kv
    rw [alookup_cons]
    by_cases hk : a = k
    · exact ⟨b, if_pos hk⟩
    · rw [if_neg hk]
      apply ih
      simp only [keysOf, List.map_cons, List.mem_cons] at h
      rcases h with h | h
      · exact absurd h.symm hk
      · exact h

theorem amem_true_iff {α β : Type} [DecidableEq α] (m : List (α × β)) (k : α) :
    amem m k = true ↔ k ∈ keysOf m := by
  constructor
  · intro h
    unfold amem at h
    cases hl : alookup m k with
    | none => rw [hl] at h; simp at h
    | some v => exact alookup_mem_keys hl
  · intro h
    obtain ⟨v, hv⟩ := mem_keys_alookup h
    unfold amem
    rw [hv]; rfl

theorem keysOf_aset {α β : Type} [DecidableEq α] (m : List (α × β)) (k : α) (v : β) :
    keysOf (aset m k v) = k :: (keysOf m).filter (fun a => a ≠ k) := by
  unfold keysOf aset
  simp [List.filter_map, Function.comp_def]

theorem keysOf_aset_nodup {α β : Type} [DecidableEq α] (m : List (α × β)) (k : α) (v : β)
    (h : (keysOf m).Nodup) : (keysOf (aset m k v)).Nodup := by
  rw [keysOf_aset]
  refine List.Nodup.cons ?_ (h.filter _)
  intro hc
  have := List.of_mem_filter hc
  simp at this

/-- Membership in the full cell list from validity bounds. -/
theorem valid_mem_cellsList (env : Environment) (p : Pos)
    (h : env.is_valid_position p = true) : p ∈ cellsList env := by
  unfold Environment.is_valid_position at h
  simp only [Bool.and_eq_true, decide_eq_true_eq] at h
  obtain ⟨⟨⟨⟨⟨hx0, hxW⟩, hy0⟩, hyH⟩, _⟩, _⟩ := h
  unfold cellsList
  have hxlt : p.1.toNat < env.grid_width := by omega
  have hylt : p.2.toNat < env.grid_height := by omega
  have h1 : (Int.ofNat p.1.toNat, Int.ofNat p.2.toNat) = p := by
    show ((p.1.toNat : Int), (p.2.toNat : Int)) = p
    rw [Int.toNat_of_nonneg hx0, Int.toNat_of_nonneg hy0]
  rw [← h1]
  apply List.mem_flatMap.mpr
  exact ⟨p.1.toNat, List.mem_range.mpr hxlt,
    List.mem_map_of_mem (fun y : Nat => (Int.ofNat p.1.toNat, Int.ofNat y))
      (List.mem_range.mpr hylt)⟩

theorem mem_reachList (env : Environment) (start p : Pos)
    (h : p = start ∨ env.is_valid_position p = true) : p ∈ reachList env start := by
  unfold reachList
  rw [List.mem_dedup]
  rcases h with h | h
  · exact h ▸ List.mem_cons_self _ _
  · exact List.mem_cons_of_mem _ (valid_mem_cellsList env p h)

theorem reachList_nodup (env : Environment) (start : Pos) :
    (reachList env start).Nodup := List.nodup_dedup _

/-- A nodup list of keys included in the reach list is no longer than it. -/
theorem keys_length_le (env : Environment) (start : Pos) (l : List Pos)
    (hnd : l.Nodup) (hsub : ∀ p ∈ l, p ∈ reachList env start) :
    l.length ≤ (reachList env start).length := by
  classical
  have h1 : l.toFinset.card = l.length := List.toFinset_card_of_nodup hnd
  have h2 : (reachList env start).toFinset.card = (reachList env start).length :=
    List.toFinset_card_of_nodup (reachList_nodup env start)
  rw [← h1, ← h2]
  apply Finset.card_le_card
  intro x hx
  rw [List.mem_toFinset] at hx ⊢
  exact hsub x hx

/-! ## Frontier lemmas -/

theorem entryLt_iff (a b : Entry) : entryLt a b = true ↔
    (a.1 < b.1 ∨ (a.1 = b.1 ∧ (a.2.1 < b.2.1 ∨ (a.2.1 = b.2.1 ∧ a.2.2 < b.2.2)))) := by
  simp [entryLt, posLt, Bool.or_eq_true, Bool.and_eq_true]

theorem entryLt_false_iff (a b : Entry) : entryLt a b = false ↔
    ¬ (a.1 < b.1 ∨ (a.1 = b.1 ∧ (a.2.1 < b.2.1 ∨ (a.2.1 = b.2.1 ∧ a.2.2 < b.2.2)))) := by
  rw [← entryLt_iff]
  cases entryLt a b <;> simp

theorem entryLt_irrefl (e : Entry) : entryLt e e = false := by
  rw [entryLt_false_iff]
  omega

theorem entryLe_trans {x m a : Entry} (h1 : entryLt x m = false)
    (h2 : entryLt m a = false) : entryLt x a = false := by
  rw [entryLt_false_iff] at *
  omega

theorem entryLt_asymm {x m : Entry} (h : entryLt m x = true) : entryLt x m = false := by
  rw [entryLt_iff] at h
  rw [entryLt_false_iff]
  omega

/-- The first component of a minimal entry bounds the popped priority. -/
theorem entryLt_false_fst {e w : Entry} (h : entryLt w e = false) : e.1 ≤ w.1 := by
  rw [entryLt_false_iff] at h
  omega

theorem minEntry_eq_none {l : List Entry} : minEntry l = none ↔ l = [] := by
  cases l with
  | nil => simp [minEntry]
  | cons e rest =>
    simp only [minEntry]
    cases minEntry rest <;> simp

theorem minEntry_mem {l : List Entry} {e : Entry} (h : minEntry l = some e) : e ∈ l := by
  induction l generalizing e with
  | nil => simp [minEntry] at h
  | cons a rest ih =>
    simp only [minEntry] at h
    cases hm : minEntry rest with
    | none =>
      rw [hm] at h
      simp at h
      exact h ▸ List.mem_cons_self _ _
    | some m =>
      rw [hm] at h
      simp only [Option.some.injEq] at h
      by_cases hlt : entryLt m a = true
      · rw [if_pos hlt] at h
        exact List.mem_cons_of_mem _ (h ▸ ih hm)
      · rw [if_neg hlt] at h
        exact h ▸ List.mem_cons_self _ _

theorem minEntry_min {l : List Entry} {e : Entry} (h : minEntry l = some e) :
    ∀ x ∈ l, entryLt x e = false := by
  induction l generalizing e with
  | nil => simp [minEntry] at h
  | cons a rest ih =>
    simp only [minEntry] at h
    intro x hx
    cases hm : minEntry rest with
    | none =>
      rw [hm] at h
      simp only [Option.some.injEq] at h
      have hrest : rest = [] := minEntry_eq_none.mp hm
      subst hrest
      rcases List.mem_cons.mp hx with hxa | hxr
      · rw [hxa, ← h]
        exact entryLt_irrefl a
      · simp at hxr
    | some m =>
      rw [hm] at h
      simp only [Option.some.injEq] at h
      by_cases hlt : entryLt m a = true
      · rw [if_pos hlt] at h
        subst h
        rcases List.mem_cons.mp hx with hxa | hxr
        · rw [hxa]
          exact entryLt_asymm hlt
        · exact ih hm x hxr
      · rw [if_neg hlt] at h
        subst h
        rcases List.mem_cons.mp hx with hxa | hxr
        · rw [hxa]
          exact entryLt_irrefl _
        · exact entryLe_trans (ih hm x hxr) (Bool.eq_false_iff.mpr hlt)

theorem removeEntry_sublist (l : List Entry) (x : Entry) :
    (removeEntry l x).Sublist l := by
  induction l with
  | nil => simp [removeEntry]
  | cons e rest ih =>
    simp only [removeEntry]
    by_cases he : e = x
    · rw [if_pos he]
      exact List.sublist_cons_self _ _
    · rw [if_neg he]
      exact List.Sublist.cons₂ _ ih

theorem removeEntry_length {l : List Entry} {x : Entry} (h : x ∈ l) :
    (removeEntry l x).length + 1 = l.length := by
  induction l with
  | nil => simp at h
  | cons e rest ih =>
    simp only [removeEntry]
    by_cases he : e = x
    · rw [if_pos he]
      rfl
    · rw [if_neg he]
      have hx : x ∈ rest := by
        rcases List.mem_cons.mp h with h1 | h1
        · exact absurd h1.symm he
        · exact h1
      simp only [List.length_cons]
      rw [← ih hx]

theorem mem_removeEntry_of_ne {l : List Entry} {x y : Entry} (hy : y ∈ l) (hne : y ≠ x) :
    y ∈ removeEntry l x := by
  induction l with
  | nil => simp at hy
  | cons e rest ih =>
    simp only [removeEntry]
    by_cases he : e = x
    · rw [if_pos he]
      rcases List.mem_cons.mp hy with h1 | h1
      · exact absurd (h1.trans he) hne
      · exact h1
    · rw [if_neg he]
      rcases List.mem_cons.mp hy with h1 | h1
      · exact h1 ▸ List.mem_cons_self _ _
      · exact List.mem_cons_of_mem _ (ih h1)

theorem popMin_spec {l : List Entry} {e : Entry} {rest : List Entry}
    (h : popMin l = some (e, rest)) :
    minEntry l = some e ∧ rest = removeEntry l e := by
  unfold popMin at h
  cases hm : minEntry l with
  | none => rw [hm] at h; simp at h
  | some m =>
    rw [hm] at h
    simp only [Option.some.injEq, Prod.mk.injEq] at h
    obtain ⟨h1, h2⟩ := h
    subst h1
    exact ⟨rfl, h2.symm⟩

/-! ## The search invariant -/

/-- Invariants of the `find_path` loop state, for any environment. -/
structure Inv (env : Environment) (start : Pos) (st : SearchState) : Prop where
  g_nodup : (keysOf st.g_score).Nodup
  cf_nodup : (keysOf st.came_from).Nodup
  open_nodup : (st.open_set.map Prod.snd).Nodup
  open_in_g : ∀ e ∈ st.open_set, e.2 ∈ keysOf st.g_score
  g_valid : ∀ p ∈ keysOf st.g_score, p = start ∨ env.is_valid_position p = true
  g_reach : ∀ p ∈ keysOf st.g_score, Reachable env start p
  g_start : alookup st.g_score start = some 0
  g_bound : ∀ p v, alookup st.g_score p = some v → v < (keysOf st.g_score).length
  cf_valid : ∀ n p, alookup st.came_from n = some p →
    env.is_valid_position n = true ∧ unitStep p n
  cf_in_g : ∀ n p, alookup st.came_from n = some p →
    ∃ vn vp, alookup st.g_score n = some vn ∧ alookup st.g_score p = some vp ∧ vp + 1 ≤ vn
  cf_start : alookup st.came_from start = none
  cf_total : ∀ p ∈ keysOf st.g_score, p ≠ start → p ∈ keysOf st.came_from

theorem inOpen_false_iff (l : List Entry) (p : Pos) :
    inOpen l p = false ↔ p ∉ l.map Prod.snd := by
  unfold inOpen
  rw [← Bool.not_eq_true, List.any_eq_true]
  simp

theorem inOpen_true_iff (l : List Entry) (p : Pos) :
    inOpen l p = true ↔ p ∈ l.map Prod.snd := by
  unfold inOpen
  rw [List.any_eq_true]
  simp

theorem mem_keys_aset_iff {α β : Type} [DecidableEq α] (m : List (α × β)) (k : α) (v : β)
    (p : α) : p ∈ keysOf (aset m k v) ↔ p = k ∨ p ∈ keysOf m := by
  rw [keysOf_aset]
  simp only [List.mem_cons, List.mem_filter, decide_eq_true_eq]
  constructor
  · rintro (h | ⟨h, _⟩)
    · exact Or.inl h
    · exact Or.inr h
  · rintro (h | h)
    · exact Or.inl h
    · by_cases hk : p = k
      · exact Or.inl hk
      · exact Or.inr ⟨h, by simpa using hk⟩

theorem filter_ne_length {l : List Pos} {x : Pos} (hnd : l.Nodup) (hx : x ∈ l) :
    (l.filter (fun a => a ≠ x)).length + 1 = l.length := by
  have heq : l.filter (fun a => a ≠ x) = l.erase x := by
    rw [hnd.erase_eq_filter x]
    apply List.filter_congr
    intro a _
    by_cases h : a = x <;> simp [h]
  rw [heq, List.length_erase_of_mem hx]
  have : 0 < l.length := List.length_pos.mpr (List.ne_nil_of_mem hx)
  omega

theorem filter_ne_of_not_mem {l : List Pos} {x : Pos} (hx : x ∉ l) :
    l.filter (fun a => a ≠ x) = l := by
  apply List.filter_eq_self.mpr
  intro b hb
  simp only [decide_eq_true_eq]
  intro hc
  subst hc
  exact hx hb

/-- Replacing the value of one list element inside a mapped sum. -/
theorem sum_map_update (l : List Pos) (hnd : l.Nodup) (w w' : Pos → Nat) (n : Pos)
    (hn : n ∈ l) (hagree : ∀ p ∈ l, p ≠ n → w' p = w p) :
    (l.map w').sum + w n = (l.map w).sum + w' n := by
  induction l with
  | nil => simp at hn
  | cons a rest ih =>
    rcases List.mem_cons.mp hn with h | h
    · subst h
      have heq : rest.map w' = rest.map w := by
        apply List.map_congr_left
        intro b hb
        apply hagree b (List.mem_cons_of_mem _ hb)
        intro hc
        subst hc
        exact (List.nodup_cons.mp hnd).1 hb
      simp only [List.map_cons, List.sum_cons, heq]
      omega
    · have hne : a ≠ n := by
        intro hc
        subst hc
        exact (List.nodup_cons.mp hnd).1 h
      have ha : w' a = w a := hagree a (List.mem_cons_self _ _) hne
      have := ih (List.nodup_cons.mp hnd).2 h
        (fun p hp hpn => hagree p (List.mem_cons_of_mem _ hp) hpn)
      simp only [List.map_cons, List.sum_cons, ha]
      omega

theorem cellWeight_aset_ne (env : Environment) (start : Pos) (g : List (Pos × Nat))
    (n : Pos) (v : Nat) (p : Pos) (h : p ≠ n) :
    cellWeight env start (aset g n v) p = cellWeight env start g p := by
  unfold cellWeight
  unfold amem
  rw [alookup_aset_ne _ _ _ _ h]

theorem cellWeight_aset_self (env : Environment) (start : Pos) (g : List (Pos × Nat))
    (n : Pos) (v : Nat) :
    cellWeight env start (aset g n v) n = v := by
  unfold cellWeight
  unfold amem
  rw [alookup_aset_self]
  rfl

theorem keysOf_le_reach (env : Environment) (start : Pos) (st : SearchState)
    (hInv : Inv env start st) :
    (keysOf st.g_score).length ≤ (reachList env start).length := by
  apply keys_length_le env start _ hInv.g_nodup
  intro p hp
  exact mem_reachList env start p (hInv.g_valid p hp)

theorem cellWeight_of_none (env : Environment) (start : Pos) (g : List (Pos × Nat))
    (p : Pos) (h : alookup g p = none) :
    cellWeight env start g p = (reachList env start).length + 2 := by
  unfold cellWeight amem
  rw [h]
  rfl

theorem cellWeight_of_some (env : Environment) (start : Pos) (g : List (Pos × Nat))
    (p : Pos) (v : Nat) (h : alookup g p = some v) :
    cellWeight env start g p = v := by
  unfold cellWeight amem
  rw [h]
  rfl

theorem not_mem_keys_of_none {α β : Type} [DecidableEq α] {m : List (α × β)} {k : α}
    (h : alookup m k = none) : k ∉ keysOf m := by
  intro hc
  obtain ⟨v, hv⟩ := mem_keys_alookup hc
  rw [hv] at h
  exact Option.noConfusion h

/-- One relaxation preserves the invariant, does not increase the measure,
and leaves the `g` entry of the expanded node unchanged. -/
theorem relax_preserves (env : Environment) (start goal current n : Pos)
    (st : SearchState) (hInv : Inv env start st)
    (vcur : Nat) (hcur : alookup st.g_score current = some vcur)
    (hreach : Reachable env start current)
    (hnv : env.is_valid_position n = true) (hstep : unitStep current n) :
    Inv env start (relaxNeighbor env goal current st n) ∧
    searchMeasure env start (relaxNeighbor env goal current st n) ≤
      searchMeasure env start st ∧
    alookup (relaxNeighbor env goal current st n).g_score current = some vcur := by
  have hne_cur : n ≠ current := unitStep_ne hstep
  unfold relaxNeighbor
  simp only [hcur, Option.getD_some]
  by_cases hcond : (!amem st.g_score n || decide (vcur + 1 < (alookup st.g_score n).getD 0))
      = true
  · rw [if_pos hcond]
    -- the update branch
    have hn_start : n ≠ start := by
      intro hc
      subst hc
      rw [Bool.or_eq_true] at hcond
      rcases hcond with h | h
      · rw [Bool.not_eq_true'] at h
        unfold amem at h
        rw [hInv.g_start] at h
        exact Bool.noConfusion h
      · rw [hInv.g_start] at h
        simp at h
    set g' := aset st.g_score n (vcur + 1) with hg'
    set cf' := aset st.came_from n current with hcf'
    have hg'_cur : alookup g' current = some vcur := by
      rw [hg', alookup_aset_ne _ _ _ _ (fun h => hne_cur h.symm), hcur]
    have hg'_n : alookup g' n = some (vcur + 1) := by
      rw [hg', alookup_aset_self]
    have hkeys_le : (keysOf st.g_score).length ≤ (reachList env start).length :=
      keysOf_le_reach env start st hInv
    have hvcur_lt : vcur < (keysOf st.g_score).length := hInv.g_bound current vcur hcur
    -- length of the new key set
    have hlen_cases : (keysOf g').length = (keysOf st.g_score).length + 1 ∨
        ((keysOf g').length = (keysOf st.g_score).length ∧ n ∈ keysOf st.g_score) := by
      rw [hg', keysOf_aset]
      cases halook : alookup st.g_score n with
      | none =>
        left
        rw [filter_ne_of_not_mem (not_mem_keys_of_none halook)]
        simp [List.length_cons]
      | some vn =>
        right
        have hmem : n ∈ keysOf st.g_score := alookup_mem_keys halook
        constructor
        · simp only [List.length_cons]
          exact filter_ne_length hInv.g_nodup hmem
        · exact hmem
    have hlen_ge : (keysOf st.g_score).length ≤ (keysOf g').length := by
      rcases hlen_cases with h | ⟨h, _⟩ <;> omega
    have htent_lt : vcur + 1 < (keysOf g').length := by
      rw [Bool.or_eq_true] at hcond
      cases halook : alookup st.g_score n with
      | none =>
        rcases hlen_cases with h | ⟨h, hmem⟩
        · omega
        · exact absurd hmem (not_mem_keys_of_none halook)
      | some vn =>
        have himp : vcur + 1 < vn := by
          rcases hcond with h | h
          · rw [Bool.not_eq_true'] at h
            unfold amem at h
            rw [halook] at h
            exact Bool.noConfusion h
          · rw [halook] at h
            simpa using h
        have := hInv.g_bound n vn halook
        omega
    refine ⟨?_, ?_, hg'_cur⟩
    · constructor
      · exact keysOf_aset_nodup _ _ _ hInv.g_nodup
      · exact keysOf_aset_nodup _ _ _ hInv.cf_nodup
      · -- open_nodup
        by_cases hpush : (!inOpen st.open_set n) = true
        · rw [if_pos hpush]
          simp only [List.map_cons]
          refine List.Nodup.cons ?_ hInv.open_nodup
          rw [Bool.not_eq_true'] at hpush
          exact (inOpen_false_iff _ _).mp hpush
        · rw [if_neg hpush]
          exact hInv.open_nodup
      · -- open_in_g
        intro e he
        by_cases hpush : (!inOpen st.open_set n) = true
        · rw [if_pos hpush] at he
          rcases List.mem_cons.mp he with h | h
          · rw [h]
            exact (mem_keys_aset_iff _ _ _ _).mpr (Or.inl rfl)
          · exact (mem_keys_aset_iff _ _ _ _).mpr (Or.inr (hInv.open_in_g e h))
        · rw [if_neg hpush] at he
          exact (mem_keys_aset_iff _ _ _ _).mpr (Or.inr (hInv.open_in_g e he))
      · -- g_valid
        intro p hp
        rcases (mem_keys_aset_iff _ _ _ _).mp hp with h | h
        · exact h ▸ Or.inr hnv
        · exact hInv.g_valid p h
      · -- g_reach
        intro p hp
        rcases (mem_keys_aset_iff _ _ _ _).mp hp with h | h
        · exact h ▸ hreach.tail ⟨hstep, hnv⟩
        · exact hInv.g_reach p h
      · -- g_start
        rw [hg', alookup_aset_ne _ _ _ _ (fun h => hn_start h.symm)]
        exact hInv.g_start
      · -- g_bound
        dsimp only
        intro p v hl
        by_cases hp : p = n
        · subst hp
          rw [hg', alookup_aset_self] at hl
          have hv : v = vcur + 1 := by
            exact (Option.some.injEq _ _ ▸ hl.symm : _).symm ▸ rfl
          rw [Option.some.injEq] at hl
          omega
        · rw [hg', alookup_aset_ne _ _ _ _ hp] at hl
          have := hInv.g_bound p v hl
          omega
      · -- cf_valid
        intro m q hl
        by_cases hm : m = n
        · subst hm
          rw [hcf', alookup_aset_self, Option.some.injEq] at hl
          exact hl ▸ ⟨hnv, hstep⟩
        · rw [hcf', alookup_aset_ne _ _ _ _ hm] at hl
          exact hInv.cf_valid m q hl
      · -- cf_in_g
        intro m q hl
        by_cases hm : m = n
        · subst hm
          rw [hcf', alookup_aset_self, Option.some.injEq] at hl
          subst hl
          exact ⟨vcur + 1, vcur, hg'_n, hg'_cur, le_refl _⟩
        · rw [hcf', alookup_aset_ne _ _ _ _ hm] at hl
          obtain ⟨vm, vq, hvm, hvq, hle⟩ := hInv.cf_in_g m q hl
          by_cases hq : q = n
          · subst hq
            have himp : vcur + 1 < vq := by
              rw [Bool.or_eq_true] at hcond
              rcases hcond with h | h
              · rw [Bool.not_eq_true'] at h
                unfold amem at h
                rw [hvq] at h
                exact Bool.noConfusion h
              · rw [hvq] at h
                simpa using h
            refine ⟨vm, vcur + 1, ?_, ?_, by omega⟩
            · rw [hg', alookup_aset_ne _ _ _ _ hm]
              exact hvm
            · exact hg'_n
          · refine ⟨vm, vq, ?_, ?_, hle⟩
            · rw [hg', alookup_aset_ne _ _ _ _ hm]
              exact hvm
            · rw [hg', alookup_aset_ne _ _ _ _ hq]
              exact hvq
      · -- cf_start
        rw [hcf', alookup_aset_ne _ _ _ _ (fun h => hn_start h.symm)]
        exact hInv.cf_start
      · -- cf_total
        intro p hp hps
        rcases (mem_keys_aset_iff _ _ _ _).mp hp with h | h
        · exact (mem_keys_aset_iff _ _ _ _).mpr (Or.inl h)
        · exact (mem_keys_aset_iff _ _ _ _).mpr (Or.inr (hInv.cf_total p h hps))
    · -- measure does not increase
      have hnr : n ∈ reachList env start := mem_reachList env start n (Or.inr hnv)
      have hupd := sum_map_update (reachList env start) (reachList_nodup env start)
        (cellWeight env start st.g_score) (cellWeight env start g') n hnr
        (fun p _ hpn => cellWeight_aset_ne env start st.g_score n (vcur + 1) p hpn)
      rw [cellWeight_aset_self] at hupd
      unfold searchMeasure
      simp only
      cases halook : alookup st.g_score n with
      | none =>
        -- fresh discovery: always pushed
        have hnotopen : ¬ inOpen st.open_set n = true := by
          intro hc
          obtain hmem := (inOpen_true_iff _ _).mp hc
          obtain ⟨e, he, hee⟩ := List.mem_map.mp hmem
          have := hInv.open_in_g e he
          rw [hee] at this
          exact not_mem_keys_of_none halook this
        have hpush : (!inOpen st.open_set n) = true := by
          rw [Bool.not_eq_true']
          exact Bool.eq_false_iff.mpr hnotopen
        rw [if_pos hpush]
        rw [cellWeight_of_none env start st.g_score n halook] at hupd
        simp only [List.length_cons]
        omega
      | some vn =>
        rw [cellWeight_of_some env start st.g_score n vn halook] at hupd
        have himp : vcur + 1 < vn := by
          rw [Bool.or_eq_true] at hcond
          rcases hcond with h | h
          · rw [Bool.not_eq_true'] at h
            unfold amem at h
            rw [halook] at h
            exact Bool.noConfusion h
          · rw [halook] at h
            simpa using h
        by_cases hpush : (!inOpen st.open_set n) = true
        · rw [if_pos hpush]
          simp only [List.length_cons]
          omega
        · rw [if_neg hpush]
          omega
  · rw [if_neg hcond]
    exact ⟨hInv, le_refl _, hcur⟩

theorem get_neighbors_spec (env : Environment) (p n : Pos) (h : n ∈ get_neighbors env p) :
    env.is_valid_position n = true ∧ unitStep p n := by
  unfold get_neighbors at h
  rw [List.mem_filter] at h
  obtain ⟨hmem, hval⟩ := h
  refine ⟨hval, ?_⟩
  simp only [List.mem_cons, List.not_mem_nil, or_false] at hmem
  unfold unitStep
  tauto

theorem foldl_relax_preserves (env : Environment) (start goal current : Pos)
    (l : List Pos) (hl : ∀ n ∈ l, env.is_valid_position n = true ∧ unitStep current n) :
    ∀ (st : SearchState), Inv env start st →
    ∀ vcur, alookup st.g_score current = some vcur →
    Reachable env start current →
    Inv env start (l.foldl (relaxNeighbor env goal current) st) ∧
    searchMeasure env start (l.foldl (relaxNeighbor env goal current) st) ≤
      searchMeasure env start st := by
  induction l with
  | nil =>
    intro st hInv vcur hcur hreach
    exact ⟨hInv, le_refl _⟩
  | cons n rest ih =>
    intro st hInv vcur hcur hreach
    obtain ⟨hnv, hstep⟩ := hl n (List.mem_cons_self _ _)
    obtain ⟨hInv1, hm1, hcur1⟩ :=
      relax_preserves env start goal current n st hInv vcur hcur hreach hnv hstep
    obtain ⟨hInv2, hm2⟩ := ih (fun m hm => hl m (List.mem_cons_of_mem _ hm)) _
      hInv1 vcur hcur1 hreach
    exact ⟨hInv2, le_trans hm2 hm1⟩

theorem pop_expand_preserves (env : Environment) (start goal : Pos) (st : SearchState)
    (hInv : Inv env start st) (f : Nat) (current : Pos) (rest : List Entry)
    (hpop : popMin st.open_set = some ((f, current), rest)) :
    Inv env start (expand env goal current { st with open_set := rest }) ∧
    searchMeasure env start (expand env goal current { st with open_set := rest }) <
      searchMeasure env start st := by
  obtain ⟨hmin, hrest⟩ := popMin_spec hpop
  have hmem : ((f, current) : Entry) ∈ st.open_set := minEntry_mem hmin
  have hcur_keys : current ∈ keysOf st.g_score := hInv.open_in_g _ hmem
  obtain ⟨vcur, hvcur⟩ := mem_keys_alookup hcur_keys
  have hreach : Reachable env start current := hInv.g_reach _ hcur_keys
  have hsub : rest.Sublist st.open_set := hrest ▸ removeEntry_sublist st.open_set (f, current)
  have hmid : Inv env start { st with open_set := rest } := by
    constructor
    · exact hInv.g_nodup
    · exact hInv.cf_nodup
    · exact List.Nodup.sublist (hsub.map Prod.snd) hInv.open_nodup
    · exact fun e he => hInv.open_in_g e (hsub.subset he)
    · exact hInv.g_valid
    · exact hInv.g_reach
    · exact hInv.g_start
    · exact hInv.g_bound
    · exact hInv.cf_valid
    · exact hInv.cf_in_g
    · exact hInv.cf_start
    · exact hInv.cf_total
  have hlen : rest.length + 1 = st.open_set.length := by
    rw [hrest]
    exact removeEntry_length hmem
  have hmid_measure : searchMeasure env start { st with open_set := rest } + 1 =
      searchMeasure env start st := by
    unfold searchMeasure
    simp only
    omega
  obtain ⟨hInv2, hm2⟩ := foldl_relax_preserves env start goal current
    (get_neighbors env current) (fun n hn => get_neighbors_spec env current n hn)
    _ hmid vcur hvcur hreach
  exact ⟨hInv2, by unfold expand; omega⟩

/-- With enough fuel, the loop returns; a non-empty result is a
reconstruction, from an invariant-satisfying state, of a goal that has
been reached by the search. -/
theorem astarLoop_total (env : Environment) (start goal : Pos) :
    ∀ fuel (st : SearchState), Inv env start st →
    searchMeasure env start st < fuel →
    ∃ l, astarLoop env goal fuel st = some l ∧
      (l = [] ∨ ∃ stR : SearchState, Inv env start stR ∧ Reachable env start goal ∧
        l = reconstruct_path stR.came_from goal) := by
  intro fuel
  induction fuel with
  | zero =>
    intro st _ hm
    omega
  | succ fuel ih =>
    intro st hInv hm
    simp only [astarLoop]
    cases hpop : popMin st.open_set with
    | none => exact ⟨[], rfl, Or.inl rfl⟩
    | some pr =>
      obtain ⟨⟨f, current⟩, rest⟩ := pr
      dsimp only
      by_cases hgoal : current = goal
      · rw [if_pos hgoal]
        subst hgoal
        refine ⟨reconstruct_path st.came_from current, rfl, Or.inr ⟨st, hInv, ?_, rfl⟩⟩
        obtain ⟨hmin, _⟩ := popMin_spec hpop
        exact hInv.g_reach _ (hInv.open_in_g _ (minEntry_mem hmin))
      · rw [if_neg hgoal]
        obtain ⟨hInv', hm'⟩ := pop_expand_preserves env start goal st hInv f current rest hpop
        exact ih _ hInv' (by omega)

/-- The initial state satisfies the invariant. -/
theorem initState_inv (env : Environment) (start goal : Pos) :
    Inv env start (initState env start goal) := by
  constructor
  · simp [initState, keysOf]
  · simp [initState, keysOf]
  · simp [initState]
  · intro e he
    simp only [initState, List.mem_singleton] at he
    subst he
    show start ∈ keysOf [(start, 0)]
    simp [keysOf]
  · intro p hp
    simp only [initState, keysOf, List.map_cons, List.map_nil, List.mem_singleton] at hp
    exact Or.inl hp
  · intro p hp
    simp only [initState, keysOf, List.map_cons, List.map_nil, List.mem_singleton] at hp
    subst hp
    exact Relation.ReflTransGen.refl
  · simp [initState, alookup]
  · intro p v hl
    simp only [initState] at hl
    rw [alookup_cons] at hl
    by_cases hp : start = p
    · rw [if_pos hp] at hl
      simp only [Option.some.injEq] at hl
      simp [keysOf, initState]
      omega
    · rw [if_neg hp] at hl
      exact absurd hl (by simp [alookup])
  · intro n p hl
    exact absurd hl (by simp [initState, alookup])
  · intro n p hl
    exact absurd hl (by simp [initState, alookup])
  · simp [initState, alookup]
  · intro p hp hps
    simp only [initState, keysOf, List.map_cons, List.map_nil, List.mem_singleton] at hp
    exact absurd hp hps

theorem cellsList_length (env : Environment) :
    (cellsList env).length = env.grid_width * env.grid_height := by
  unfold cellsList
  rw [List.length_flatMap]
  have : ∀ x : Nat, ((List.range env.grid_height).map
      (fun y => (Int.ofNat x, Int.ofNat y))).length = env.grid_height := by
    intro x
    rw [List.length_map, List.length_range]
  calc ((List.range env.grid_width).map (fun x => ((List.range env.grid_height).map
        (fun y => (Int.ofNat x, Int.ofNat y))).length)).sum
      = ((List.range env.grid_width).map (fun _ => env.grid_height)).sum := by
        apply congrArg
        apply List.map_congr_left
        intro x _
        exact this x
    _ = env.grid_width * env.grid_height := by
        rw [List.map_const', List.sum_replicate, List.length_range, smul_eq_mul]

theorem reachList_length_le (env : Environment) (start : Pos) :
    (reachList env start).length ≤ env.grid_width * env.grid_height + 1 := by
  have h1 : (reachList env start).length ≤ (start :: cellsList env).length :=
    List.Sublist.length_le (List.dedup_sublist _)
  rw [List.length_cons, cellsList_length] at h1
  omega

/-- The initial measure is below the fuel `find_path` supplies. -/
theorem initState_measure (env : Environment) (start goal : Pos) :
    searchMeasure env start (initState env start goal) < fuelBound env := by
  have hR := reachList_length_le env start
  have hsum : ((reachList env start).map
      (cellWeight env start (initState env start goal).g_score)).sum ≤
      (reachList env start).length * ((reachList env start).length + 2) := by
    have hb : ∀ x ∈ (reachList env start).map
        (cellWeight env start (initState env start goal).g_score),
        x ≤ (reachList env start).length + 2 := by
      intro x hx
      obtain ⟨p, _, hpx⟩ := List.mem_map.mp hx
      subst hpx
      unfold cellWeight
      by_cases hmem : amem (initState env start goal).g_score p
      · rw [if_pos hmem]
        simp only [initState]
        rw [alookup_cons]
        by_cases hp : start = p
        · rw [if_pos hp]
          simp
        · rw [if_neg hp]
          simp [alookup]
      · rw [if_neg hmem]
    calc ((reachList env start).map
          (cellWeight env start (initState env start goal).g_score)).sum
        ≤ ((reachList env start).map
            (cellWeight env start (initState env start goal).g_score)).length •
              ((reachList env start).length + 2) := List.sum_le_card_nsmul _ _ hb
      _ = (reachList env start).length * ((reachList env start).length + 2) := by
          rw [List.length_map, smul_eq_mul]
  unfold searchMeasure fuelBound
  simp only [initState, List.length_singleton]
  simp only [initState] at hsum
  set W := env.grid_width * env.grid_height with hW
  set L := (reachList env start).length with hL
  have h2 : L * (L + 2) ≤ (W + 1) * (W + 3) := Nat.mul_le_mul hR (by omega)
  have h3 : (W + 1) * (W + 3) + 2 ≤ (W + 3) * (W + 3) := by nlinarith
  linarith

/-! ## C7: unreachable goals -/

/-- C7: when the goal is not reachable from the start along valid cells,
the search loop exhausts its frontier within the provided fuel (returning
`some []` rather than running out) and `find_path` returns the empty
sequence. -/
theorem find_path_unreachable (env : Environment) (start goal : Pos)
    (h : ¬ Reachable env start goal) :
    astarLoop env goal (fuelBound env) (initState env start goal) = some [] ∧
    find_path env start goal = [] := by
  obtain ⟨l, hloop, hcase⟩ := astarLoop_total env start goal (fuelBound env)
    (initState env start goal) (initState_inv env start goal)
    (initState_measure env start goal)
  have hl : l = [] := by
    rcases hcase with hl | ⟨_, _, hreach, _⟩
    · exact hl
    · exact absurd hreach h
  subst hl
  exact ⟨hloop, by unfold find_path; rw [hloop]; rfl⟩

/-- A 3×3 all-road grid split by a wall of obstacles. -/
def wallEnv : Environment :=
  { grid_width := 3, grid_height := 3, road_map := fun _ _ => true,
    obstacles := [(1, 0), (1, 1), (1, 2)], destination := (2, 0), start_pos := (0, 0) }

/-- C7 witness: behind the wall, the loop terminates with an empty path. -/
theorem find_path_unreachable_witness :
    astarLoop wallEnv (2, 0) (fuelBound wallEnv) (initState wallEnv (0, 0) (2, 0))
      = some [] ∧ find_path wallEnv (0, 0) (2, 0) = [] := by
  apply find_path_unreachable
  intro hreach
  have hclosed : ∀ p, Reachable wallEnv (0, 0) p →
      p ∈ ([(0, 0), (0, 1), (0, 2)] : List Pos) := by
    intro p hp
    induction hp with
    | refl => decide
    | tail hab hbc ih =>
      rename_i b c
      obtain ⟨hstep, hvalid⟩ := hbc
      simp only [List.mem_cons, List.not_mem_nil, or_false] at ih
      rcases ih with h1 | h1 | h1 <;> subst h1 <;>
        rcases hstep with h2 | h2 | h2 | h2 <;> subst h2 <;> revert hvalid <;> decide
  have := hclosed _ hreach
  simp at this

/-! ## Path reconstruction structure -/

theorem reconAux_ne_nil (cf : List (Pos × Pos)) (fuel : Nat) (c : Pos) :
    reconAux cf fuel c ≠ [] := by
  cases fuel with
  | zero => simp [reconAux]
  | succ fuel =>
    simp only [reconAux]
    cases alookup cf c <;> simp

theorem reconAux_head (cf : List (Pos × Pos)) (fuel : Nat) (c : Pos) :
    (reconAux cf fuel c).head? = some c := by
  cases fuel with
  | zero => rfl
  | succ fuel =>
    simp only [reconAux]
    cases alookup cf c <;> rfl

theorem reconAux_chain (cf : List (Pos × Pos))
    (hcf : ∀ m p, alookup cf m = some p → unitStep p m) :
    ∀ fuel c, List.Chain' (fun a b => unitStep b a) (reconAux cf fuel c) := by
  intro fuel
  induction fuel with
  | zero => intro c; simp [reconAux]
  | succ fuel ih =>
    intro c
    simp only [reconAux]
    cases hl : alookup cf c with
    | none => simp
    | some parent =>
      apply List.Chain'.cons'
      · exact ih parent
      · intro y hy
        rw [reconAux_head cf fuel parent] at hy
        cases hy
        exact hcf c parent hl

theorem reconAux_dropLast_keys (cf : List (Pos × Pos)) :
    ∀ fuel c, ∀ x ∈ (reconAux cf fuel c).dropLast, x ∈ keysOf cf := by
  intro fuel
  induction fuel with
  | zero => intro c x hx; simp [reconAux] at hx
  | succ fuel ih =>
    intro c x hx
    simp only [reconAux] at hx
    cases hl : alookup cf c with
    | none => rw [hl] at hx; simp at hx
    | some parent =>
      rw [hl] at hx
      rw [List.dropLast_cons_of_ne_nil (reconAux_ne_nil cf fuel parent)] at hx
      rcases List.mem_cons.mp hx with h | h
      · exact h ▸ alookup_mem_keys hl
      · exact ih parent x h

theorem mem_dropLast_reverse {α : Type} (l : List α) (x : α)
    (h : x ∈ l.reverse.tail) : x ∈ l.dropLast := by
  rcases List.eq_nil_or_concat l with hl | ⟨init, a, hl⟩
  · subst hl; simp at h
  · subst hl
    rw [List.concat_eq_append] at h ⊢
    rw [List.reverse_append] at h
    simp only [List.reverse_cons, List.reverse_nil, List.nil_append,
      List.singleton_append, List.tail_cons] at h
    rw [List.dropLast_concat]
    exact (List.mem_reverse).mp h

/-- C2 (amended): every returned path takes unit steps between
consecutive cells, and every cell after the first is a valid position.
(The first cell is the start, which the search never validity-checks —
see the counterexample.) -/
theorem find_path_steps_valid (env : Environment) (start goal : Pos) :
    List.Chain' unitStep (find_path env start goal) ∧
    ∀ p ∈ (find_path env start goal).tail, env.is_valid_position p = true := by
  obtain ⟨l, hloop, hcase⟩ := astarLoop_total env start goal (fuelBound env)
    (initState env start goal) (initState_inv env start goal)
    (initState_measure env start goal)
  have hfp : find_path env start goal = l := by
    unfold find_path
    rw [hloop]
    rfl
  rw [hfp]
  rcases hcase with hl | ⟨stR, hInv, _, hl⟩
  · subst hl
    exact ⟨List.chain'_nil, by simp⟩
  · subst hl
    constructor
    · unfold reconstruct_path
      rw [List.chain'_reverse]
      exact reconAux_chain stR.came_from
        (fun m p hmp => (hInv.cf_valid m p hmp).2) _ goal
    · intro p hp
      unfold reconstruct_path at hp
      have hmem := mem_dropLast_reverse _ _ hp
      have hkey := reconAux_dropLast_keys stR.came_from _ goal p hmem
      obtain ⟨q, hq⟩ := mem_keys_alookup hkey
      exact (hInv.cf_valid p q hq).1

/-- A 1×1 grid whose only cell is an obstacle. -/
def blockedEnv : Environment :=
  { grid_width := 1, grid_height := 1, road_map := fun _ _ => true,
    obstacles := [(0, 0)], destination := (0, 0), start_pos := (0, 0) }

/-- C2 counterexample: the path `[(0,0)]` is returned although its only
position fails `is_valid_position` (the start cell is never checked). -/
theorem find_path_invalid_start_cex :
    find_path blockedEnv (0, 0) (0, 0) = [(0, 0)] ∧
    find_path blockedEnv (0, 0) (0, 0) ≠ [] ∧
    blockedEnv.is_valid_position (0, 0) = false := by
  refine ⟨find_path_self blockedEnv (0, 0), ?_, by decide⟩
  rw [find_path_self blockedEnv (0, 0)]
  decide

/-! ## C4: the replanning validity scan -/

/-- Positions after the first of any returned path avoid the obstacles. -/
theorem find_path_tail_no_obstacle (env : Environment) (start goal : Pos) :
    ∀ p ∈ (find_path env start goal).tail, p ∉ env.obstacles := by
  intro p hp hobs
  have hvalid := (find_path_steps_valid env start goal).2 p hp
  unfold Environment.is_valid_position at hvalid
  simp only [Bool.and_eq_true, Bool.not_eq_true'] at hvalid
  have h2 := hvalid.2
  simp_all

/-- C4 (amended): after `_maybe_replan`, either the held plan is free of
obstacle cells, or it is exactly the stale plan held before the call
(kept because the replan search returned empty). -/
theorem maybe_replan_obstacle_free (env : Environment) (a : AgentState) :
    (∀ p ∈ (maybe_replan env a).planned_path, p ∉ env.obstacles) ∨
    (maybe_replan env a).planned_path = a.planned_path := by
  unfold maybe_replan
  dsimp only
  split_ifs <;> (try dsimp only) <;>
    first
    | (right; rfl)
    | (left
       exact fun p hp => find_path_tail_no_obstacle env a.position env.destination p hp)

/-- The C4 counterexample world: a 3×1 strip whose two rightmost cells are
obstacles, making the destination unreachable. -/
def staleEnv : Environment :=
  { grid_width := 3, grid_height := 1, road_map := fun _ _ => true,
    obstacles := [(1, 0), (2, 0)], destination := (2, 0), start_pos := (0, 0) }

/-- C4 counterexample: the scan detects the obstacle on the plan, but the
replan search returns empty and the stale plan — still containing the
obstacle — is kept. -/
theorem maybe_replan_stale_cex :
    (maybe_replan staleEnv
      { baseAgent with
        position := (0, 0)
        steps := 5
        planned_path := [(1, 0)] }).planned_path = [(1, 0)] ∧
    ((1, 0) : Pos) ∈ staleEnv.obstacles := by
  constructor
  · decide
  · decide

/-! ## C1: optimality on the obstacle-free grid

On a fully traversable grid `find_path` returns a path of exactly
Manhattan length.  (On grids with obstacles this fails — the frontier is
never re-ordered after an in-frontier improvement — but the claim is
about the obstacle-free grid.) -/

/-- A `W × H` grid that is all road with no obstacles. -/
def freeEnv (W H : Nat) : Environment :=
  { grid_width := W, grid_height := H, road_map := fun _ _ => true,
    obstacles := [], destination := (0, 0), start_pos := (0, 0) }

theorem freeEnv_valid_iff (W H : Nat) (p : Pos) :
    (freeEnv W H).is_valid_position p = true ↔
    0 ≤ p.1 ∧ p.1 < (W : Int) ∧ 0 ≤ p.2 ∧ p.2 < (H : Int) := by
  unfold Environment.is_valid_position freeEnv
  simp [decide_eq_true_eq, and_assoc]

theorem heuristic_triangle (a b c : Pos) :
    heuristic a c ≤ heuristic a b + heuristic b c := by
  unfold heuristic
  omega

theorem heuristic_comm (a b : Pos) : heuristic a b = heuristic b a := by
  unfold heuristic
  omega

theorem heuristic_eq_zero {a b : Pos} (h : heuristic a b = 0) : a = b := by
  unfold heuristic at h
  have h1 : a.1 = b.1 := by omega
  have h2 : a.2 = b.2 := by omega
  exact Prod.ext h1 h2

theorem unitStep_heuristic {p n : Pos} (h : unitStep p n) : heuristic p n = 1 := by
  rcases h with h | h | h | h <;> subst h <;> unfold heuristic <;> simp <;> omega

theorem unitStep_heuristic_from {a p n : Pos} (h : unitStep p n) :
    heuristic a n = heuristic a p + 1 ∨ heuristic a p = heuristic a n + 1 := by
  rcases h with h | h | h | h <;> subst h <;> unfold heuristic <;> omega

/-- On the free grid, a cell strictly between start and goal in Manhattan
terms has a valid forward successor one step closer to the goal. -/
theorem succ_exists (W H : Nat) (start goal x : Pos)
    (hgoal : (freeEnv W H).is_valid_position goal = true)
    (hx : (freeEnv W H).is_valid_position x = true)
    (hpsi : heuristic start x + heuristic x goal = heuristic start goal)
    (hne : x ≠ goal) :
    ∃ w : Pos, unitStep x w ∧ (freeEnv W H).is_valid_position w = true ∧
      heuristic start w = heuristic start x + 1 ∧
      heuristic start w + heuristic w goal = heuristic start goal := by
  rw [freeEnv_valid_iff] at hgoal hx
  by_cases hx1 : x.1 = goal.1
  · have hx2 : x.2 ≠ goal.2 := by
      intro hc
      exact hne (Prod.ext hx1 hc)
    by_cases hup : x.2 < goal.2
    · refine ⟨(x.1, x.2 + 1), Or.inl rfl, ?_, ?_, ?_⟩
      · rw [freeEnv_valid_iff]
        simp only
        omega
      · unfold heuristic at *
        simp only at *
        omega
      · unfold heuristic at *
        simp only at *
        omega
    · refine ⟨(x.1, x.2 - 1), Or.inr (Or.inl rfl), ?_, ?_, ?_⟩
      · rw [freeEnv_valid_iff]
        simp only
        omega
      · unfold heuristic at *
        simp only at *
        omega
      · unfold heuristic at *
        simp only at *
        omega
  · by_cases hr : x.1 < goal.1
    · refine ⟨(x.1 + 1, x.2), Or.inr (Or.inr (Or.inl rfl)), ?_, ?_, ?_⟩
      · rw [freeEnv_valid_iff]
        simp only
        omega
      · unfold heuristic at *
        simp only at *
        omega
      · unfold heuristic at *
        simp only at *
        omega
    · refine ⟨(x.1 - 1, x.2), Or.inr (Or.inr (Or.inr rfl)), ?_, ?_, ?_⟩
      · rw [freeEnv_valid_iff]
        simp only
        omega
      · unfold heuristic at *
        simp only at *
        omega
      · unfold heuristic at *
        simp only at *
        omega

/-- How one node expansion can change the search state: `g` entries are
unchanged or improved to `vcur + 1` at valid neighbours of `current`;
frontier entries are kept, and new ones carry `vcur + 1` plus the
heuristic; parent links are unchanged or redirected to `current`. -/
def ExpandRel (env : Environment) (goal current : Pos) (vcur : Nat)
    (st0 st1 : SearchState) : Prop :=
  (∀ p, alookup st1.g_score p = alookup st0.g_score p ∨
    (alookup st1.g_score p = some (vcur + 1) ∧ unitStep current p ∧
      env.is_valid_position p = true ∧
      (∀ vold, alookup st0.g_score p = some vold → vcur + 1 ≤ vold))) ∧
  (∀ e ∈ st1.open_set, e ∈ st0.open_set ∨
    (e.1 = vcur + 1 + heuristic e.2 goal ∧ unitStep current e.2 ∧
      env.is_valid_position e.2 = true ∧
      alookup st1.g_score e.2 = some (vcur + 1) ∧
      (alookup st0.g_score e.2 = none ∨
        ∃ vold, alookup st0.g_score e.2 = some vold ∧ vcur + 1 < vold))) ∧
  (∀ e ∈ st0.open_set, e ∈ st1.open_set) ∧
  (∀ p, alookup st1.came_from p = alookup st0.came_from p ∨
    alookup st1.came_from p = some current) ∧
  (∀ p ∈ keysOf st1.g_score, p ∈ keysOf st0.g_score ∨
    ((vcur + 1 + heuristic p goal, p) ∈ st1.open_set ∧
      alookup st1.g_score p = some (vcur + 1) ∧ unitStep current p ∧
      env.is_valid_position p = true))

theorem expandRel_refl (env : Environment) (goal current : Pos) (vcur : Nat)
    (st : SearchState) : ExpandRel env goal current vcur st st :=
  ⟨fun p => Or.inl rfl, fun e he => Or.inl he, fun e he => he,
   fun p => Or.inl rfl, fun p hp => Or.inl hp⟩

theorem heuristic_self (p : Pos) : heuristic p p = 0 := by
  unfold heuristic
  omega

/-- Case analysis of one relaxation: either the state is unchanged (and
the neighbour already holds a value at most `vcur + 1`), or the
neighbour's scores are set to `vcur + 1` — necessarily an improvement —
and its entry is pushed exactly when the frontier has none for it. -/
theorem relax_cases (env : Environment) (goal current n : Pos) (vcur : Nat)
    (st : SearchState) (hcur : alookup st.g_score current = some vcur) :
    (relaxNeighbor env goal current st n = st ∧
      ∃ vold, alookup st.g_score n = some vold ∧ vold ≤ vcur + 1) ∨
    ((alookup st.g_score n = none ∨
       ∃ vold, alookup st.g_score n = some vold ∧ vcur + 1 < vold) ∧
      (relaxNeighbor env goal current st n).g_score = aset st.g_score n (vcur + 1) ∧
      (relaxNeighbor env goal current st n).came_from = aset st.came_from n current ∧
      ((relaxNeighbor env goal current st n).open_set =
          (vcur + 1 + heuristic n goal, n) :: st.open_set ∧
          n ∉ st.open_set.map Prod.snd ∨
        (relaxNeighbor env goal current st n).open_set = st.open_set ∧
          n ∈ st.open_set.map Prod.snd)) := by
  unfold relaxNeighbor
  simp only [hcur, Option.getD_some]
  by_cases hcond : (!amem st.g_score n
      || decide (vcur + 1 < (alookup st.g_score n).getD 0)) = true
  · rw [if_pos hcond]
    right
    refine ⟨?_, rfl, rfl, ?_⟩
    · rw [Bool.or_eq_true] at hcond
      cases halook : alookup st.g_score n with
      | none => exact Or.inl rfl
      | some vold =>
        right
        refine ⟨vold, rfl, ?_⟩
        rcases hcond with h | h
        · rw [Bool.not_eq_true'] at h
          unfold amem at h
          rw [halook] at h
          exact Bool.noConfusion h
        · rw [halook, decide_eq_true_eq] at h
          exact h
    · by_cases hpush : (!inOpen st.open_set n) = true
      · rw [if_pos hpush]
        refine Or.inl ⟨rfl, ?_⟩
        rw [Bool.not_eq_true'] at hpush
        exact (inOpen_false_iff _ _).mp hpush
      · rw [if_neg hpush]
        rw [Bool.not_eq_true, Bool.not_eq_false'] at hpush
        exact Or.inr ⟨rfl, (inOpen_true_iff _ _).mp hpush⟩
  · rw [if_neg hcond]
    left
    refine ⟨rfl, ?_⟩
    rw [Bool.or_eq_true, not_or] at hcond
    obtain ⟨h1, h2⟩ := hcond
    rw [Bool.not_eq_true, Bool.not_eq_false'] at h1
    rw [amem_true_iff] at h1
    obtain ⟨vold, hvold⟩ := mem_keys_alookup h1
    refine ⟨vold, hvold, ?_⟩
    rw [decide_eq_true_eq] at h2
    rw [hvold] at h2
    simp only [Option.getD_some] at h2
    omega

theorem expandRel_relax (env : Environment) (goal current n : Pos) (vcur : Nat)
    (st0 st1 : SearchState)
    (hopen0 : ∀ e ∈ st0.open_set, e.2 ∈ keysOf st0.g_score)
    (hcur1 : alookup st1.g_score current = some vcur)
    (hnv : env.is_valid_position n = true) (hstep : unitStep current n)
    (hrel : ExpandRel env goal current vcur st0 st1) :
    ExpandRel env goal current vcur st0 (relaxNeighbor env goal current st1 n) := by
  obtain ⟨hg, hopen, hkeep, hcf, hkeys⟩ := hrel
  rcases relax_cases env goal current n vcur st1 hcur1 with
    ⟨heq, -⟩ | ⟨himp, hgeq, hcfeq, hopeq⟩
  · rw [heq]
    exact ⟨hg, hopen, hkeep, hcf, hkeys⟩
  · have hg2n : alookup (relaxNeighbor env goal current st1 n).g_score n =
        some (vcur + 1) := by
      rw [hgeq]
      exact alookup_aset_self _ _ _
    have hg2ne : ∀ p, p ≠ n →
        alookup (relaxNeighbor env goal current st1 n).g_score p =
          alookup st1.g_score p := by
      intro p hp
      rw [hgeq]
      exact alookup_aset_ne _ _ _ _ hp
    have himp0 : alookup st0.g_score n = none ∨
        ∃ vold, alookup st0.g_score n = some vold ∧ vcur + 1 < vold := by
      rcases hg n with h1 | ⟨h1, -, -, -⟩
      · rw [← h1]
        exact himp
      · rcases himp with h | ⟨vold, hv, hlt⟩
        · rw [h1] at h
          exact Option.noConfusion h
        · rw [h1] at hv
          injection hv with hv
          omega
    refine ⟨?_, ?_, ?_, ?_, ?_⟩
    · intro p
      by_cases hp : p = n
      · subst hp
        refine Or.inr ⟨hg2n, hstep, hnv, ?_⟩
        intro vold hvold
        rcases himp0 with h | ⟨v2, hv2, hlt⟩
        · rw [h] at hvold
          exact Option.noConfusion hvold
        · rw [hv2] at hvold
          injection hvold with h
          omega
      · rw [hg2ne p hp]
        exact hg p
    · intro e he
      have hmem1 : e ∈ st1.open_set ∨ e = (vcur + 1 + heuristic n goal, n) := by
        rcases hopeq with ⟨hoe, -⟩ | ⟨hoe, -⟩
        · rw [hoe] at he
          rcases List.mem_cons.mp he with h | h
          · exact Or.inr h
          · exact Or.inl h
        · rw [hoe] at he
          exact Or.inl he
      rcases hmem1 with h | h
      · rcases hopen e h with h2 | ⟨h2, h3, h4, h5, h6⟩
        · exact Or.inl h2
        · refine Or.inr ⟨h2, h3, h4, ?_, h6⟩
          by_cases hp : e.2 = n
          · rw [hp, hg2n]
          · rw [hg2ne _ hp]
            exact h5
      · subst h
        exact Or.inr ⟨rfl, hstep, hnv, hg2n, himp0⟩
    · intro e he
      have h1 := hkeep e he
      rcases hopeq with ⟨hoe, -⟩ | ⟨hoe, -⟩
      · rw [hoe]
        exact List.mem_cons_of_mem _ h1
      · rw [hoe]
        exact h1
    · intro p
      by_cases hp : p = n
      · subst hp
        right
        rw [hcfeq]
        exact alookup_aset_self _ _ _
      · have heqp : alookup (relaxNeighbor env goal current st1 n).came_from p =
            alookup st1.came_from p := by
          rw [hcfeq]
          exact alookup_aset_ne _ _ _ _ hp
        rw [heqp]
        exact hcf p
    · intro p hp
      have hp2 : p = n ∨ p ∈ keysOf st1.g_score := by
        rw [hgeq] at hp
        exact (mem_keys_aset_iff _ _ _ _).mp hp
      rcases hp2 with hpn | hp1
      · subst hpn
        by_cases hmem0 : p ∈ keysOf st0.g_score
        · exact Or.inl hmem0
        · right
          refine ⟨?_, hg2n, hstep, hnv⟩
          rcases hopeq with ⟨hoe, -⟩ | ⟨hoe, hin⟩
          · rw [hoe]
            exact List.mem_cons_self _ _
          · rw [hoe]
            obtain ⟨e, he, hesnd⟩ := List.mem_map.mp hin
            rcases hopen e he with h1 | ⟨h1, -, -, -, -⟩
            · exact absurd (hesnd ▸ hopen0 e h1) hmem0
            · have he1 : e.1 = vcur + 1 + heuristic p goal := by
                rw [h1, hesnd]
              have heeq : e = (vcur + 1 + heuristic p goal, p) := Prod.ext he1 hesnd
              rw [← heeq]
              exact he
      · rcases hkeys p hp1 with h | ⟨h1, h2, h3, h4⟩
        · exact Or.inl h
        · refine Or.inr ⟨?_, ?_, h3, h4⟩
          · rcases hopeq with ⟨hoe, -⟩ | ⟨hoe, -⟩
            · rw [hoe]
              exact List.mem_cons_of_mem _ h1
            · rw [hoe]
              exact h1
          · by_cases hp : p = n
            · subst hp
              exact hg2n
            · rw [hg2ne p hp]
              exact h2

theorem expandRel_foldl (env : Environment) (start goal current : Pos) (vcur : Nat)
    (st0 : SearchState)
    (hopen0 : ∀ e ∈ st0.open_set, e.2 ∈ keysOf st0.g_score) :
    ∀ (l : List Pos), (∀ n ∈ l, env.is_valid_position n = true ∧ unitStep current n) →
    ∀ st1, Inv env start st1 → alookup st1.g_score current = some vcur →
    Reachable env start current →
    ExpandRel env goal current vcur st0 st1 →
    ExpandRel env goal current vcur st0 (l.foldl (relaxNeighbor env goal current) st1) := by
  intro l
  induction l with
  | nil =>
    intro _ st1 _ _ _ hrel
    exact hrel
  | cons n rest ih =>
    intro hl st1 hInv1 hcur1 hreach hrel
    obtain ⟨hnv, hstep⟩ := hl n (List.mem_cons_self _ _)
    obtain ⟨hInv2, -, hcur2⟩ :=
      relax_preserves env start goal current n st1 hInv1 vcur hcur1 hreach hnv hstep
    exact ih (fun m hm => hl m (List.mem_cons_of_mem _ hm)) _ hInv2 hcur2 hreach
      (expandRel_relax env goal current n vcur st0 st1 hopen0 hcur1 hnv hstep hrel)

/-- Values at most `vcur + 1` survive (as values at most `vcur + 1`)
through the remaining relaxations of an expansion. -/
theorem foldl_relax_ub (env : Environment) (start goal current : Pos) (vcur : Nat) :
    ∀ (l : List Pos), (∀ n ∈ l, env.is_valid_position n = true ∧ unitStep current n) →
    ∀ st1, Inv env start st1 → alookup st1.g_score current = some vcur →
    Reachable env start current →
    ∀ p v, alookup st1.g_score p = some v → v ≤ vcur + 1 →
    ∃ v2, alookup (l.foldl (relaxNeighbor env goal current) st1).g_score p = some v2 ∧
      v2 ≤ vcur + 1 := by
  intro l
  induction l with
  | nil =>
    intro _ st1 _ _ _ p v hv hle
    exact ⟨v, hv, hle⟩
  | cons n rest ih =>
    intro hl st1 hInv1 hcur1 hreach p v hv hle
    obtain ⟨hnv, hstep⟩ := hl n (List.mem_cons_self _ _)
    obtain ⟨hInv2, -, hcur2⟩ :=
      relax_preserves env start goal current n st1 hInv1 vcur hcur1 hreach hnv hstep
    have hltail := fun m hm => hl m (List.mem_cons_of_mem _ hm)
    rcases relax_cases env goal current n vcur st1 hcur1 with
      ⟨heq, -⟩ | ⟨-, hgeq, -, -⟩
    · exact ih hltail _ hInv2 hcur2 hreach p v (by rw [heq]; exact hv) hle
    · by_cases hp : p = n
      · subst hp
        refine ih hltail _ hInv2 hcur2 hreach p (vcur + 1) ?_ (le_refl _)
        rw [hgeq]
        exact alookup_aset_self _ _ _
      · refine ih hltail _ hInv2 hcur2 hreach p v ?_ hle
        rw [hgeq, alookup_aset_ne _ _ _ _ hp]
        exact hv

/-- After an expansion every processed neighbour holds a value at most
`vcur + 1`. -/
theorem expand_relaxed (env : Environment) (start goal current : Pos) (vcur : Nat) :
    ∀ (l : List Pos), (∀ n ∈ l, env.is_valid_position n = true ∧ unitStep current n) →
    ∀ st1, Inv env start st1 → alookup st1.g_score current = some vcur →
    Reachable env start current →
    ∀ n ∈ l,
    ∃ v2, alookup (l.foldl (relaxNeighbor env goal current) st1).g_score n = some v2 ∧
      v2 ≤ vcur + 1 := by
  intro l
  induction l with
  | nil =>
    intro _ st1 _ _ _ n hn
    exact absurd hn (List.not_mem_nil n)
  | cons m rest ih =>
    intro hl st1 hInv1 hcur1 hreach n hn
    obtain ⟨hmv, hmstep⟩ := hl m (List.mem_cons_self _ _)
    obtain ⟨hInv2, -, hcur2⟩ :=
      relax_preserves env start goal current m st1 hInv1 vcur hcur1 hreach hmv hmstep
    have hltail := fun q hq => hl q (List.mem_cons_of_mem _ hq)
    rcases List.mem_cons.mp hn with hnm | hnr
    · subst hnm
      rcases relax_cases env goal current n vcur st1 hcur1 with
        ⟨heq, vold, hvold, hvle⟩ | ⟨-, hgeq, -, -⟩
      · exact foldl_relax_ub env start goal current vcur rest hltail _ hInv2 hcur2
          hreach n vold (by rw [heq]; exact hvold) hvle
      · refine foldl_relax_ub env start goal current vcur rest hltail _ hInv2 hcur2
          hreach n (vcur + 1) ?_ (le_refl _)
        rw [hgeq]
        exact alookup_aset_self _ _ _
    · exact ih hltail _ hInv2 hcur2 hreach n hnr

theorem inv_open_sublist (env : Environment) (start : Pos) (st : SearchState)
    (hInv : Inv env start st) (rest : List Entry) (hsub : rest.Sublist st.open_set) :
    Inv env start { st with open_set := rest } := by
  constructor
  · exact hInv.g_nodup
  · exact hInv.cf_nodup
  · exact List.Nodup.sublist (hsub.map Prod.snd) hInv.open_nodup
  · exact fun e he => hInv.open_in_g e (hsub.subset he)
  · exact hInv.g_valid
  · exact hInv.g_reach
  · exact hInv.g_start
  · exact hInv.g_bound
  · exact hInv.cf_valid
  · exact hInv.cf_in_g
  · exact hInv.cf_start
  · exact hInv.cf_total

/-- Removing the popped entry removes its position from the frontier when
positions are pairwise distinct. -/
theorem removeEntry_not_mem_snd {l : List Entry} {e : Entry}
    (hnd : (l.map Prod.snd).Nodup) (he : e ∈ l) :
    e.2 ∉ (removeEntry l e).map Prod.snd := by
  induction l with
  | nil => exact absurd he (List.not_mem_nil e)
  | cons a rest ih =>
    unfold removeEntry
    simp only [List.map_cons, List.nodup_cons] at hnd
    by_cases hae : a = e
    · rw [if_pos hae]
      subst hae
      exact hnd.1
    · rw [if_neg hae]
      rcases List.mem_cons.mp he with h | h
      · exact absurd h.symm hae
      · intro hc
        rcases List.mem_cons.mp hc with h2 | h2
        · exact hnd.1 (h2 ▸ List.mem_map_of_mem Prod.snd h)
        · exact ih hnd.2 h h2

theorem nodup_subset_length {α : Type} [DecidableEq α] (l l' : List α)
    (hnd : l.Nodup) (hsub : ∀ p ∈ l, p ∈ l') : l.length ≤ l'.length := by
  classical
  have h1 : l.toFinset.card = l.length := List.toFinset_card_of_nodup hnd
  have h2 : l.toFinset.card ≤ l'.toFinset.card := by
    apply Finset.card_le_card
    intro x hx
    rw [List.mem_toFinset] at hx ⊢
    exact hsub x hx
  have h3 : l'.toFinset.card ≤ l'.length := List.toFinset_card_le l'
  omega

/-- Converse of `get_neighbors_spec`: every valid axis neighbour is
scanned. -/
theorem mem_get_neighbors (env : Environment) (p n : Pos)
    (hstep : unitStep p n) (hv : env.is_valid_position n = true) :
    n ∈ get_neighbors env p := by
  unfold get_neighbors
  rw [List.mem_filter]
  refine ⟨?_, hv⟩
  rcases hstep with h | h | h | h <;> subst h <;> simp

/-- Optimality invariants of the loop state on an obstacle-free grid.
`heuristic start p` is the true start distance of `p`; every score is
bounded below by it; every frontier entry is the untouched initial one,
or priced exactly (`g + h`, hence `ψ = m + h` when clean), or overpriced
by exactly 2 with a closed cell one step further from the start vouching
for it; settled (closed) cells are exact and fully relaxed; the goal is
never settled without being on the frontier. -/
structure OptCore (W H : Nat) (start goal : Pos) (st : SearchState) : Prop where
  g_low : ∀ p v, alookup st.g_score p = some v → heuristic start p ≤ v
  entry_ok : ∀ e ∈ st.open_set,
    (e.2 = start ∧ e.1 = 0) ∨
    (∃ v, alookup st.g_score e.2 = some v ∧ v + heuristic e.2 goal ≤ e.1)
  entry_class : ∀ e ∈ st.open_set,
    (e.2 = start ∧ e.1 = 0) ∨
    e.1 = heuristic start e.2 + heuristic e.2 goal ∨
    (e.1 = heuristic start e.2 + heuristic e.2 goal + 2 ∧
      ∃ y, y ∈ keysOf st.g_score ∧ y ∉ st.open_set.map Prod.snd ∧
        heuristic start y = heuristic start e.2 + 1)
  closed_inv : ∀ p, p ∈ keysOf st.g_score → p ∉ st.open_set.map Prod.snd →
    heuristic start p + heuristic p goal = heuristic start goal ∧
    alookup st.g_score p = some (heuristic start p) ∧
    ∀ w, unitStep p w → (freeEnv W H).is_valid_position w = true →
      ∃ vw, alookup st.g_score w = some vw ∧ vw ≤ heuristic start p + 1
  goal_open : goal ∈ keysOf st.g_score → goal ∈ st.open_set.map Prod.snd

/-- Any popped node is clean: its score is its true start distance and it
lies on a Manhattan geodesic from start to goal — provided some frontier
entry is priced at most the start-goal distance. -/
theorem pop_clean (W H : Nat) (start goal : Pos) (st : SearchState)
    (hInv : Inv (freeEnv W H) start st) (hC : OptCore W H start goal st)
    (hwit : ∃ e ∈ st.open_set, e.1 ≤ heuristic start goal)
    (f : Nat) (current : Pos) (rest : List Entry)
    (hpop : popMin st.open_set = some ((f, current), rest)) :
    alookup st.g_score current = some (heuristic start current) ∧
    heuristic start current + heuristic current goal = heuristic start goal := by
  obtain ⟨hmin, hrest⟩ := popMin_spec hpop
  have hmem : ((f, current) : Entry) ∈ st.open_set := minEntry_mem hmin
  obtain ⟨ew, hwmem, hwle⟩ := hwit
  have hfle : ((f, current) : Entry).1 ≤ ew.1 :=
    entryLt_false_fst (minEntry_min hmin ew hwmem)
  have hfD : f ≤ heuristic start goal := le_trans hfle hwle
  rcases hC.entry_ok _ hmem with ⟨hstart, -⟩ | ⟨v, hv, hle⟩
  · dsimp only at hstart
    subst hstart
    rw [heuristic_self]
    exact ⟨hInv.g_start, by omega⟩
  · dsimp only at hv hle
    have hm := hC.g_low _ _ hv
    have htri := heuristic_triangle start current goal
    have hveq : v = heuristic start current := by omega
    refine ⟨hveq ▸ hv, by omega⟩

/-- From any settled cell, walking forward along a start-goal geodesic —
jumping over a dirty frontier cell via the settled cell that vouches for
it — reaches a frontier entry priced at most the start-goal distance. -/
theorem walk_lemma (W H : Nat) (start goal : Pos)
    (hs : (freeEnv W H).is_valid_position start = true)
    (hg : (freeEnv W H).is_valid_position goal = true)
    (st : SearchState) (hInv : Inv (freeEnv W H) start st)
    (hC : OptCore W H start goal st) :
    ∀ k x, heuristic start goal - heuristic start x ≤ k →
      x ∈ keysOf st.g_score → x ∉ st.open_set.map Prod.snd →
      ∃ e ∈ st.open_set, e.1 ≤ heuristic start goal := by
  intro k
  induction k with
  | zero =>
    intro x hk hxk hxo
    obtain ⟨hpsi, -, -⟩ := hC.closed_inv x hxk hxo
    have hxg : x = goal := heuristic_eq_zero (show heuristic x goal = 0 by omega)
    subst hxg
    exact absurd (hC.goal_open hxk) hxo
  | succ k ih =>
    intro x hk hxk hxo
    obtain ⟨hpsi, hgx, hrelax⟩ := hC.closed_inv x hxk hxo
    by_cases hxg : x = goal
    · subst hxg
      exact absurd (hC.goal_open hxk) hxo
    · have hxv : (freeEnv W H).is_valid_position x = true := by
        rcases hInv.g_valid x hxk with h | h
        · exact h ▸ hs
        · exact h
      obtain ⟨w, hwstep, hwv, hwm, hwpsi⟩ :=
        succ_exists W H start goal x hg hxv hpsi hxg
      obtain ⟨vw, hvw, hvle⟩ := hrelax w hwstep hwv
      have hwlow := hC.g_low w vw hvw
      have hwk : w ∈ keysOf st.g_score := alookup_mem_keys hvw
      by_cases hwo : w ∈ st.open_set.map Prod.snd
      · obtain ⟨e, he, hesnd⟩ := List.mem_map.mp hwo
        rcases hC.entry_class e he with ⟨-, h0⟩ | hclean | ⟨-, y, hyk, hyo, hym⟩
        · exact ⟨e, he, by omega⟩
        · refine ⟨e, he, ?_⟩
          rw [hclean, hesnd]
          omega
        · obtain ⟨hypsi, -, -⟩ := hC.closed_inv y hyk hyo
          refine ih y ?_ hyk hyo
          rw [hesnd] at hym
          omega
      · refine ih w ?_ hwk hwo
        omega

/-- One pop-and-expand step (of a non-goal node) preserves the optimality
invariants, and the frontier again holds an entry priced at most the
start-goal distance. -/
theorem opt_pop_expand (W H : Nat) (start goal : Pos)
    (hs : (freeEnv W H).is_valid_position start = true)
    (hg : (freeEnv W H).is_valid_position goal = true)
    (st : SearchState) (hInv : Inv (freeEnv W H) start st)
    (hC : OptCore W H start goal st)
    (hwit : ∃ e ∈ st.open_set, e.1 ≤ heuristic start goal)
    (f : Nat) (current : Pos) (rest : List Entry)
    (hpop : popMin st.open_set = some ((f, current), rest))
    (hne : current ≠ goal) :
    OptCore W H start goal
      (expand (freeEnv W H) goal current { st with open_set := rest }) ∧
    ∃ e ∈ (expand (freeEnv W H) goal current { st with open_set := rest }).open_set,
      e.1 ≤ heuristic start goal := by
  obtain ⟨hmin, hrest⟩ := popMin_spec hpop
  have hmem : ((f, current) : Entry) ∈ st.open_set := minEntry_mem hmin
  obtain ⟨hgcur, hpsicur⟩ := pop_clean W H start goal st hInv hC hwit f current rest hpop
  have hsub : rest.Sublist st.open_set :=
    hrest ▸ removeEntry_sublist st.open_set (f, current)
  have hmid : Inv (freeEnv W H) start { st with open_set := rest } :=
    inv_open_sublist _ _ _ hInv rest hsub
  have hcur_keys : current ∈ keysOf st.g_score := hInv.open_in_g _ hmem
  have hreach : Reachable (freeEnv W H) start current := hInv.g_reach _ hcur_keys
  have hnotin : current ∉ rest.map Prod.snd := by
    rw [hrest]
    exact removeEntry_not_mem_snd hInv.open_nodup hmem
  obtain ⟨hInv2, -⟩ := pop_expand_preserves (freeEnv W H) start goal st hInv
    f current rest hpop
  set stm : SearchState := { st with open_set := rest } with hstm
  have hrel : ExpandRel (freeEnv W H) goal current (heuristic start current) stm
      (expand (freeEnv W H) goal current stm) :=
    expandRel_foldl (freeEnv W H) start goal current (heuristic start current) stm
      (fun e he => hmid.open_in_g e he)
      (get_neighbors (freeEnv W H) current)
      (fun n hn => get_neighbors_spec (freeEnv W H) current n hn)
      stm hmid hgcur hreach
      (expandRel_refl (freeEnv W H) goal current (heuristic start current) stm)
  have hcov : ∀ w, unitStep current w → (freeEnv W H).is_valid_position w = true →
      ∃ vw, alookup (expand (freeEnv W H) goal current stm).g_score w = some vw ∧
        vw ≤ heuristic start current + 1 := by
    intro w hwstep hwv
    exact expand_relaxed (freeEnv W H) start goal current (heuristic start current)
      (get_neighbors (freeEnv W H) current)
      (fun n hn => get_neighbors_spec (freeEnv W H) current n hn)
      stm hmid hgcur hreach w (mem_get_neighbors (freeEnv W H) current w hwstep hwv)
  set st2 : SearchState := expand (freeEnv W H) goal current stm with hst2
  obtain ⟨hrg, hropen, hrkeep, hrcf, hrkeys⟩ := hrel
  have hg2cur : alookup st2.g_score current = some (heuristic start current) := by
    rcases hrg current with h | ⟨-, hstep, -, -⟩
    · rw [h]
      exact hgcur
    · exact absurd rfl (unitStep_ne hstep)
  have hcur_not2 : current ∉ st2.open_set.map Prod.snd := by
    intro hcmem
    obtain ⟨e, he, hesnd⟩ := List.mem_map.mp hcmem
    rcases hropen e he with h | ⟨-, hstep, -, -, -⟩
    · exact hnotin (hesnd ▸ List.mem_map_of_mem Prod.snd h)
    · exact absurd rfl (unitStep_ne (hesnd ▸ hstep))
  have hcur_keys2 : current ∈ keysOf st2.g_score := alookup_mem_keys hg2cur
  have hclosed_keep : ∀ p, p ∈ keysOf st.g_score → p ∉ st.open_set.map Prod.snd →
      alookup st2.g_score p = alookup st.g_score p := by
    intro p hpk hpo
    rcases hrg p with h | ⟨hnew, hstep, -, himp⟩
    · exact h
    · obtain ⟨-, hpg, -⟩ := hC.closed_inv p hpk hpo
      have hge := himp (heuristic start p) hpg
      have hadj := @unitStep_heuristic_from start current p hstep
      have hmp : heuristic start p = heuristic start current + 1 := by omega
      rw [hnew, hpg, hmp]
  have hclosed_noentry : ∀ p, p ∈ keysOf st.g_score → p ∉ st.open_set.map Prod.snd →
      p ∉ st2.open_set.map Prod.snd := by
    intro p hpk hpo hmem2
    obtain ⟨e, he, hesnd⟩ := List.mem_map.mp hmem2
    rcases hropen e he with h | ⟨-, hstep, -, -, himp⟩
    · exact hpo (hesnd ▸ List.mem_map_of_mem Prod.snd (hsub.subset h))
    · obtain ⟨-, hpg, -⟩ := hC.closed_inv p hpk hpo
      rw [hesnd] at hstep himp
      rcases himp with h | ⟨vold, hvold, hlt⟩
      · rw [hpg] at h
        exact Option.noConfusion h
      · rw [hpg] at hvold
        injection hvold with hveq
        have hadj := @unitStep_heuristic_from start current p hstep
        omega
  have hCore2 : OptCore W H start goal st2 := by
    constructor
    · intro p v hv
      rcases hrg p with h | ⟨hnew, hstep, -, -⟩
      · rw [h] at hv
        exact hC.g_low p v hv
      · rw [hnew] at hv
        injection hv with hv
        have hadj := @unitStep_heuristic_from start current p hstep
        omega
    · intro e he
      rcases hropen e he with h | ⟨hphi, -, -, hge, -⟩
      · rcases hC.entry_ok e (hsub.subset h) with hinit | ⟨v, hv, hle⟩
        · exact Or.inl hinit
        · rcases hrg e.2 with h2 | ⟨hnew, -, -, himp⟩
          · refine Or.inr ⟨v, ?_, hle⟩
            rw [h2]
            exact hv
          · refine Or.inr ⟨heuristic start current + 1, hnew, ?_⟩
            have := himp v hv
            omega
      · refine Or.inr ⟨heuristic start current + 1, hge, ?_⟩
        omega
    · intro e he
      rcases hropen e he with h | ⟨hphi, hstep, -, -, -⟩
      · rcases hC.entry_class e (hsub.subset h) with
          hinit | hclean | ⟨hdirty, y, hyk, hyo, hym⟩
        · exact Or.inl hinit
        · exact Or.inr (Or.inl hclean)
        · refine Or.inr (Or.inr ⟨hdirty, y, ?_, hclosed_noentry y hyk hyo, hym⟩)
          obtain ⟨vy, hvy⟩ := mem_keys_alookup hyk
          rcases hrg y with h2 | ⟨h2, -, -, -⟩
          · exact alookup_mem_keys (show alookup st2.g_score y = some vy by
              rw [h2]; exact hvy)
          · exact alookup_mem_keys h2
      · have hadj := @unitStep_heuristic_from start current e.2 hstep
        rcases hadj with hfwd | hbwd
        · right
          left
          omega
        · right
          right
          exact ⟨by omega, current, hcur_keys2, hcur_not2, by omega⟩
    · intro p hpk2 hpo2
      have hpk : p ∈ keysOf st.g_score := by
        rcases hrkeys p hpk2 with h | ⟨hent, -, -, -⟩
        · exact h
        · exact absurd (List.mem_map_of_mem Prod.snd hent) hpo2
      by_cases hpo : p ∈ st.open_set.map Prod.snd
      · obtain ⟨e, he, hesnd⟩ := List.mem_map.mp hpo
        by_cases hecur : e = (f, current)
        · subst hecur
          have hpc : current = p := hesnd
          subst hpc
          exact ⟨hpsicur, hg2cur, hcov⟩
        · have he2 : e ∈ rest := by
            rw [hrest]
            exact mem_removeEntry_of_ne he hecur
          exact absurd (hesnd ▸ List.mem_map_of_mem Prod.snd (hrkeep e he2)) hpo2
      · obtain ⟨hppsi, hpg, hprelax⟩ := hC.closed_inv p hpk hpo
        refine ⟨hppsi, ?_, ?_⟩
        · rw [hclosed_keep p hpk hpo]
          exact hpg
        · intro w hwstep hwv
          obtain ⟨vw, hvw, hvle⟩ := hprelax w hwstep hwv
          rcases hrg w with h | ⟨hnew, -, -, himp⟩
          · refine ⟨vw, ?_, hvle⟩
            rw [h]
            exact hvw
          · refine ⟨heuristic start current + 1, hnew, ?_⟩
            have := himp vw hvw
            omega
    · intro hgk2
      rcases hrkeys goal hgk2 with hgk | ⟨hent, -, -, -⟩
      · have hgo := hC.goal_open hgk
        obtain ⟨e, he, hesnd⟩ := List.mem_map.mp hgo
        have hecur : e ≠ (f, current) := by
          intro hc
          rw [hc] at hesnd
          exact hne hesnd
        have he2 : e ∈ rest := hrest ▸ mem_removeEntry_of_ne he hecur
        exact hesnd ▸ List.mem_map_of_mem Prod.snd (hrkeep e he2)
      · exact List.mem_map_of_mem Prod.snd hent
  refine ⟨hCore2, ?_⟩
  exact walk_lemma W H start goal hs hg st2 hInv2 hCore2
    (heuristic start goal) current (by omega) hcur_keys2 hcur_not2

/-- The initial state satisfies the optimality invariants. -/
theorem initState_optCore (W H : Nat) (start goal : Pos) :
    OptCore W H start goal (initState (freeEnv W H) start goal) := by
  constructor
  · intro p v hv
    simp only [initState, alookup_cons] at hv
    by_cases hp : start = p
    · rw [if_pos hp] at hv
      injection hv with hv
      subst hp
      rw [heuristic_self]
      omega
    · rw [if_neg hp] at hv
      simp [alookup] at hv
  · intro e he
    simp only [initState, List.mem_singleton] at he
    subst he
    exact Or.inl ⟨rfl, rfl⟩
  · intro e he
    simp only [initState, List.mem_singleton] at he
    subst he
    exact Or.inl ⟨rfl, rfl⟩
  · intro p hpk hpo
    simp only [initState, keysOf, List.map_cons, List.map_nil,
      List.mem_singleton] at hpk
    subst hpk
    exfalso
    apply hpo
    simp [initState]
  · intro hgk
    simp only [initState, keysOf, List.map_cons, List.map_nil,
      List.mem_singleton] at hgk
    subst hgk
    simp [initState]

theorem getLast_cons_ne_nil {α : Type} (c : α) {l : List α} (h : l ≠ []) :
    (c :: l).getLast? = l.getLast? := by
  cases l with
  | nil => exact absurd rfl h
  | cons a t => rfl

/-- Following the parent links from a cell whose score is `v` takes at
most `v` steps and ends at the start cell. -/
theorem reconAux_len_last (env : Environment) (start : Pos) (st : SearchState)
    (hInv : Inv env start st) :
    ∀ v c, alookup st.g_score c = some v → ∀ fuel, v < fuel →
      (reconAux st.came_from fuel c).length ≤ v + 1 ∧
      (reconAux st.came_from fuel c).getLast? = some start := by
  intro v
  induction v using Nat.strong_induction_on with
  | _ v ihv =>
    intro c hc fuel hfuel
    by_cases hcs : c = start
    · subst hcs
      cases fuel with
      | zero => omega
      | succ fl =>
        simp only [reconAux, hInv.cf_start]
        exact ⟨by simp, by simp⟩
    · have hck : c ∈ keysOf st.g_score := alookup_mem_keys hc
      have hccf : c ∈ keysOf st.came_from := hInv.cf_total c hck hcs
      obtain ⟨p, hp⟩ := mem_keys_alookup hccf
      obtain ⟨vn, vp, hvn, hvp, hlt⟩ := hInv.cf_in_g c p hp
      have hveq : vn = v := by
        rw [hc] at hvn
        injection hvn with h
        omega
      cases fuel with
      | zero => omega
      | succ fl =>
        simp only [reconAux, hp]
        obtain ⟨hlen, hlast⟩ := ihv vp (by omega) p hvp fl (by omega)
        refine ⟨?_, ?_⟩
        · simp only [List.length_cons]
          omega
        · rw [getLast_cons_ne_nil _ (reconAux_ne_nil _ _ _)]
          exact hlast

/-- A reversed-unit-step chain is at least as long as the Manhattan
distance between its ends. -/
theorem chain_last_length :
    ∀ (l : List Pos) (c d : Pos), List.Chain' (fun a b => unitStep b a) (c :: l) →
      (c :: l).getLast? = some d → heuristic c d ≤ l.length := by
  intro l
  induction l with
  | nil =>
    intro c d _ hlast
    simp only [List.getLast?_singleton] at hlast
    injection hlast with h
    subst h
    simp [heuristic_self]
  | cons a t ih =>
    intro c d hchain hlast
    rw [List.chain'_cons] at hchain
    obtain ⟨hstep, hchain2⟩ := hchain
    rw [getLast_cons_ne_nil c (by simp)] at hlast
    have hrec := ih a d hchain2 hlast
    have h1 : heuristic c a = 1 := by
      rw [heuristic_comm]
      exact unitStep_heuristic hstep
    have htri := heuristic_triangle c a d
    simp only [List.length_cons]
    omega

/-- When the goal's score equals the start-goal distance, the
reconstruction has exactly that many steps. -/
theorem recon_length (env : Environment) (start goal : Pos) (st : SearchState)
    (hInv : Inv env start st)
    (hgv : alookup st.g_score goal = some (heuristic start goal)) :
    (reconstruct_path st.came_from goal).length = heuristic start goal + 1 := by
  have hfuel : heuristic start goal < st.came_from.length + 1 := by
    have hb := hInv.g_bound goal _ hgv
    have hsub : ∀ p ∈ (keysOf st.g_score).filter (fun p => p ≠ start),
        p ∈ keysOf st.came_from := by
      intro p hp
      rw [List.mem_filter, decide_eq_true_eq] at hp
      exact hInv.cf_total p hp.1 hp.2
    have hnd : ((keysOf st.g_score).filter (fun p => p ≠ start)).Nodup :=
      hInv.g_nodup.filter _
    have hlen := nodup_subset_length _ _ hnd hsub
    have hstart_mem : start ∈ keysOf st.g_score := alookup_mem_keys hInv.g_start
    have hflen := filter_ne_length hInv.g_nodup hstart_mem
    have hcfa : (keysOf st.came_from).length = st.came_from.length := by
      simp [keysOf]
    omega
  unfold reconstruct_path
  rw [List.length_reverse]
  obtain ⟨hlen, hlast⟩ := reconAux_len_last env start st hInv _ goal hgv
    (st.came_from.length + 1) hfuel
  have hchain := reconAux_chain st.came_from
    (fun m p hp => (hInv.cf_valid m p hp).2) (st.came_from.length + 1) goal
  cases hr : reconAux st.came_from (st.came_from.length + 1) goal with
  | nil => exact absurd hr (reconAux_ne_nil _ _ _)
  | cons c tl =>
    have hhead : c = goal := by
      have hh := reconAux_head st.came_from (st.came_from.length + 1) goal
      rw [hr] at hh
      simp only [List.head?_cons] at hh
      injection hh
    rw [hr] at hchain hlast hlen
    have hlower := chain_last_length tl c start hchain hlast
    rw [hhead, heuristic_comm goal start] at hlower
    simp only [List.length_cons] at hlen ⊢
    omega

/-- With the optimality invariants and a cheap frontier entry, the loop
returns a path of exactly Manhattan length. -/
theorem astarLoop_opt (W H : Nat) (start goal : Pos)
    (hs : (freeEnv W H).is_valid_position start = true)
    (hg : (freeEnv W H).is_valid_position goal = true) :
    ∀ fuel (st : SearchState), Inv (freeEnv W H) start st →
    OptCore W H start goal st →
    (∃ e ∈ st.open_set, e.1 ≤ heuristic start goal) →
    searchMeasure (freeEnv W H) start st < fuel →
    ∃ l, astarLoop (freeEnv W H) goal fuel st = some l ∧
      l.length = heuristic start goal + 1 := by
  intro fuel
  induction fuel with
  | zero =>
    intro st _ _ _ hm
    omega
  | succ fuel ih =>
    intro st hInv hC hwit hm
    simp only [astarLoop]
    cases hpop : popMin st.open_set with
    | none =>
      obtain ⟨e, he, -⟩ := hwit
      unfold popMin at hpop
      cases hminl : minEntry st.open_set with
      | none =>
        rw [minEntry_eq_none] at hminl
        rw [hminl] at he
        exact absurd he (List.not_mem_nil e)
      | some m =>
        rw [hminl] at hpop
        exact Option.noConfusion hpop
    | some pr =>
      obtain ⟨⟨f, current⟩, rest⟩ := pr
      dsimp only
      by_cases hgoal : current = goal
      · rw [if_pos hgoal]
        rw [hgoal] at hpop
        obtain ⟨hgcur, -⟩ := pop_clean W H start goal st hInv hC hwit f goal rest hpop
        refine ⟨reconstruct_path st.came_from current, rfl, ?_⟩
        rw [hgoal]
        exact recon_length (freeEnv W H) start goal st hInv hgcur
      · rw [if_neg hgoal]
        obtain ⟨hInv2, hm2⟩ :=
          pop_expand_preserves (freeEnv W H) start goal st hInv f current rest hpop
        obtain ⟨hC2, hwit2⟩ := opt_pop_expand W H start goal hs hg st hInv hC hwit
          f current rest hpop hgoal
        exact ih _ hInv2 hC2 hwit2 (by omega)

/-- C1: on an obstacle-free grid (`freeEnv`: every cell is road, no
obstacle list), for every pair of valid cells — all of which are mutually
reachable there — `find_path` returns a path whose number of unit steps
equals the Manhattan distance between start and goal: the returned list
holds `heuristic start goal + 1` cells. -/
theorem find_path_free_manhattan (W H : Nat) (start goal : Pos)
    (hs : (freeEnv W H).is_valid_position start = true)
    (hg : (freeEnv W H).is_valid_position goal = true) :
    (find_path (freeEnv W H) start goal).length = heuristic start goal + 1 := by
  unfold find_path
  obtain ⟨l, hl, hlen⟩ := astarLoop_opt W H start goal hs hg
    (fuelBound (freeEnv W H)) (initState (freeEnv W H) start goal)
    (initState_inv (freeEnv W H) start goal) (initState_optCore W H start goal)
    ⟨(0, start), by simp [initState], Nat.zero_le _⟩
    (initState_measure (freeEnv W H) start goal)
  rw [hl]
  exact hlen

/-- C1 witness: on the free 4×3 grid the path from `(0,0)` to `(3,2)` has
exactly Manhattan length 5, i.e. 6 cells. -/
theorem find_path_free_manhattan_witness :
    (freeEnv 4 3).is_valid_position (0, 0) = true ∧
    (freeEnv 4 3).is_valid_position (3, 2) = true ∧
    (find_path (freeEnv 4 3) (0, 0) (3, 2)).length = heuristic (0, 0) (3, 2) + 1 :=
  ⟨by decide, by decide,
    find_path_free_manhattan 4 3 (0, 0) (3, 2) (by decide) (by decide)⟩

end SelfDriving
